import Mathlib

/-!
Verification of the translation-client core of the Google-Translate-API
repository.  The repository contains three variants of the client:

* `src/api/freetranslation.ts` (namespace `FT` below) — free endpoint,
  TTL cache, semaphore, retry with exponential backoff;
* the `api/translations.ts` variant (namespace `TR` below) — official
  endpoint, insertion-order cache, batched `translateMultiple`;
* a second revision of `freetranslation.ts` (namespace `FT2` below) —
  adds HTML-entity decoding, punctuation cleanup, auto language
  detection and an (unused) `options.signal` parameter.

Texts are modelled as `List Char` (`Str`); JavaScript strings are UTF-16
sequences and all operations used by the code are per-character.
Network calls are modelled by explicit oracles (functions from the
request to the response); `Date.now()` is an explicit `now : Nat`
parameter; the event-loop interleaving of `Promise.all` over chunks is
modelled sequentially, which is faithful for the properties below
because each chunk computation touches distinct cache keys or is
read-only between suspension points.
-/

set_option autoImplicit false

/-- JavaScript strings, modelled as lists of characters. -/
abbrev Str := List Char

/-- JavaScript `\s` (the whitespace characters that occur in this code
base: space, tab, LF, CR, VT, FF). -/
def isWs (c : Char) : Bool :=
  c == ' ' || c == '\t' || c == '\n' || c == '\r' ||
  c == Char.ofNat 11 || c == Char.ofNat 12

/-- The sentence delimiters `[.!?]` of `splitText`'s regex. -/
def isDelim (c : Char) : Bool :=
  c == '.' || c == '!' || c == '?'

/-- The punctuation class `[.,!?;:]` of `FT2.processTranslationResponse`'s
cleanup regex. -/
def isPunct (c : Char) : Bool :=
  c == '.' || c == ',' || c == '!' || c == '?' || c == ';' || c == ':'

/-- The non-whitespace characters of a string, in order. -/
def nonWs (l : Str) : Str := l.filter (fun c => !isWs c)

/-- JavaScript `String.prototype.trimEnd`: drop trailing whitespace. -/
def trimEnd (l : Str) : Str := (l.reverse.dropWhile isWs).reverse

/-- JavaScript `String.prototype.trim`: drop leading and trailing
whitespace. -/
def trim (l : Str) : Str := (trimEnd l).dropWhile isWs

/-- Prepend a character to the first piece of a split result. -/
def consHead (c : Char) : List Str → List Str
  | [] => [[c]]
  | h :: t => (c :: h) :: t

/-- JavaScript `String.prototype.split` on a single-character
separator. -/
def splitOnChar (sep : Char) : Str → List Str
  | [] => [[]]
  | c :: rest =>
    if c = sep then [] :: splitOnChar sep rest
    else consHead c (splitOnChar sep rest)

/-- Is the first character whitespace? (regex lookahead used by the
marker scan). -/
def headIsWs : Str → Bool
  | [] => false
  | c :: _ => isWs c

/-- Scanner for `text.replace(/([.!?])\s+/g, "$1\n")`: a delimiter
followed by a whitespace run is replaced by the delimiter and a single
`'\n'`; the flag records that the scanner is inside the whitespace run
consumed by a match. -/
def markGo : Bool → Str → Str
  | _, [] => []
  | skipping, c :: rest =>
    if skipping && isWs c then markGo true rest
    else if isDelim c && headIsWs rest then c :: '\n' :: markGo true rest
    else c :: markGo false rest

/-- `text.replace(/([.!?])\s+/g, "$1\n")` from `splitText`. -/
def markSentences (text : Str) : Str := markGo false text

/-- Scanner for `.replace(/\s+/g, " ")`: collapse every whitespace run
to a single space; the flag records being inside a run already
collapsed. -/
def collapseGo : Bool → Str → Str
  | _, [] => []
  | inRun, c :: rest =>
    if isWs c then
      if inRun then collapseGo true rest
      else ' ' :: collapseGo true rest
    else c :: collapseGo false rest

/-- `normalizeText` (identical in all three variants):
`text.trim().replace(/\s+/g, " ")`. -/
def normalizeText (text : Str) : Str := collapseGo false (trim text)

/-- `Array.prototype.join(' ')`. -/
def joinSp : List Str → Str
  | [] => []
  | [s] => s
  | s :: rest => s ++ ' ' :: joinSp rest

/-- `text.substring(a, b)` for `a ≤ b` (the only way it is called). -/
def extract (l : Str) (a b : Nat) : Str := (l.drop a).take (b - a)

/-- JavaScript `text.lastIndexOf(" ", i)`: the largest position `j ≤ i`
holding a space, if any (`none` models `-1`). -/
def lastSpaceLE (l : Str) (i : Nat) : Option Nat :=
  ((List.range l.length).filter
    (fun j => decide (j ≤ i) && decide (l.get? j = some ' '))).getLast?

/-- `generateCacheKey(sl, tl, text)` = `` `${sl}-${tl}-${text}` ``
(identical in all variants). -/
def generateCacheKey (sl tl text : Str) : Str :=
  sl ++ '-' :: tl ++ '-' :: text

-- ===========================================================
-- Chunkers
-- ===========================================================

/-- Inner `for (const word of words)` loop of `splitText`
(`freetranslation.ts` lines 67–76): accumulate words while the chunk
stays within `maxLength`, flushing `currentChunk.trim()` otherwise.
State `(chunks, cc)` is (`chunks`, `currentChunk`). -/
def wordLoop (maxLength : Nat) (chunks : List Str) (cc : Str) : List Str → List Str × Str
  | [] => (chunks, cc)
  | w :: ws =>
    if cc.length + w.length + 1 ≤ maxLength then
      wordLoop maxLength chunks (cc ++ w ++ [' ']) ws
    else
      wordLoop maxLength (if cc.isEmpty then chunks else chunks ++ [trim cc]) (w ++ [' ']) ws

/-- Outer `for (const sentence of sentences)` loop of `splitText`
(`freetranslation.ts` lines 54–81). -/
def sentLoop (maxLength : Nat) (chunks : List Str) (cc : Str) : List Str → List Str × Str
  | [] => (chunks, cc)
  | s :: ss =>
    if cc.length + s.length ≤ maxLength then
      sentLoop maxLength chunks (cc ++ s ++ [' ']) ss
    else
      let chunks1 := if cc.isEmpty then chunks else chunks ++ [trim cc]
      if s.length > maxLength then
        let p := wordLoop maxLength chunks1 [] (splitOnChar ' ' s)
        sentLoop maxLength p.1 p.2 ss
      else
        sentLoop maxLength chunks1 (s ++ [' ']) ss

/-- `splitText(text, maxLength)` from `freetranslation.ts` lines 43–88
(the same function appears verbatim in the second `freetranslation.ts`
revision). -/
def splitText (text : Str) (maxLength : Nat) : List Str :=
  if text.length ≤ maxLength then [text]
  else
    let sentences := splitOnChar '\n' (markSentences text)
    let p := sentLoop maxLength [] [] sentences
    if p.2.isEmpty then p.1 else p.1 ++ [trim p.2]

/-- Loop body of `splitTextIntoChunks` (`api/translations.ts` variant,
lines 103–122).  The source `while` loop advances `currentIndex` by at
least one position per iteration whenever `maxChunkLength > 0`, so a
fuel of `text.length + 1` is never exhausted for the inputs the
theorems quantify over; fuel exhaustion returns the chunks emitted so
far. -/
def sticLoop (text : Str) (maxChunkLength : Nat) : Nat → Nat → List Str
  | 0, _ => []
  | fuel + 1, currentIndex =>
    if currentIndex < text.length then
      let nextIndex := currentIndex + maxChunkLength
      if nextIndex ≥ text.length then
        [extract text currentIndex text.length]
      else
        let spaceIndex :=
          match lastSpaceLE text nextIndex with
          | none => nextIndex
          | some j => if j ≤ currentIndex then nextIndex else j
        extract text currentIndex spaceIndex ::
          sticLoop text maxChunkLength fuel spaceIndex
    else []

/-- `splitTextIntoChunks(text, maxChunkLength)` from the
`api/translations.ts` variant. -/
def splitTextIntoChunks (text : Str) (maxChunkLength : Nat) : List Str :=
  sticLoop text maxChunkLength (text.length + 1) 0

-- ===========================================================
-- Transport errors and the retry executors
-- ===========================================================

/-- The shape of a JavaScript exception as inspected by the retry
logic: `axios.isAxiosError(error)`, `error.code`, and
`error.response?.status` (`none` models both a missing response and a
missing status field). -/
structure JsError where
  isAxiosError : Bool
  code : Option Str
  status : Option Nat
  message : Str
deriving DecidableEq

/-- `error.response?.status || 500`: JavaScript `||` replaces both
`undefined` and the falsy status `0` with the default `500`. -/
def statusOr500 (e : JsError) : Nat :=
  match e.status with
  | none => 500
  | some s => if s = 0 then 500 else s

namespace FT

/-- The retry classifier of `freetranslation.ts` `callTranslationAPI`
(lines 258–262): axios error and (`ECONNABORTED`, effective status 429,
or effective status ≥ 500). -/
def isRetryable (e : JsError) : Bool :=
  e.isAxiosError &&
    (e.code == some "ECONNABORTED".toList ||
     statusOr500 e == 429 ||
     decide (500 ≤ statusOr500 e))

/-- `callTranslationAPI(params, attempt)` of `freetranslation.ts`
(lines 226–278), with the network modelled by `oracle` (the outcome of
the axios attempt with the given index) and the backoff delay elided
(it does not affect the result).  Returns the outcome together with the
number of attempts performed.  `maxRetries` is the constant `RETRIES`. -/
def callTranslationAPI {α : Type} (oracle : Nat → Except JsError α)
    (maxRetries : Nat) (attempt : Nat) : Except JsError α × Nat :=
  match oracle attempt with
  | .ok r => (.ok r, 1)
  | .error e =>
    if attempt ≥ maxRetries then (.error e, 1)
    else if isRetryable e then
      let p := callTranslationAPI oracle maxRetries (attempt + 1)
      (p.1, p.2 + 1)
    else (.error e, 1)
termination_by maxRetries - attempt
decreasing_by omega

end FT

namespace TR

/-- The retry classifier of the `api/translations.ts` variant
(lines 150–153): axios error and (`ECONNABORTED` or effective status
≥ 500) — note the absence of a 429 case. -/
def isRetryable (e : JsError) : Bool :=
  e.isAxiosError &&
    (e.code == some "ECONNABORTED".toList ||
     decide (500 ≤ statusOr500 e))

/-- `callTranslationAPI(params, attempt)` of the `api/translations.ts`
variant (lines 129–166), modelled like `FT.callTranslationAPI` but with
this variant's classifier. -/
def callTranslationAPI {α : Type} (oracle : Nat → Except JsError α)
    (maxRetries : Nat) (attempt : Nat) : Except JsError α × Nat :=
  match oracle attempt with
  | .ok r => (.ok r, 1)
  | .error e =>
    if attempt ≥ maxRetries then (.error e, 1)
    else if isRetryable e then
      let p := callTranslationAPI oracle maxRetries (attempt + 1)
      (p.1, p.2 + 1)
    else (.error e, 1)
termination_by maxRetries - attempt
decreasing_by omega

end TR

-- ===========================================================
-- Semaphore
-- ===========================================================

/-- State of the `Semaphore` class (identical in `freetranslation.ts`
lines 165–189 and the `api/translations.ts` variant): the permit
counter `count`, the FIFO queue `tasks` of suspended acquirers, plus a
ghost list `holders` of callers currently between a completed
`acquire()` and the matching `release()` (task identities are `Nat`). -/
structure SemState where
  count : Int
  tasks : List Nat
  holders : List Nat
deriving DecidableEq

/-- An interaction with the semaphore: a call to `acquire()` by task
`t`, or a call to `release()` by holder `t`. -/
inductive SemEvent where
  | acq (t : Nat)
  | rel (t : Nat)
deriving DecidableEq

/-- One synchronous step of the semaphore.  `acquire` either takes a
permit immediately or enqueues the caller; `release` increments the
counter and, when somebody is waiting, decrements it again and hands
the permit to the task dequeued from the front (`tasks.shift()`), which
thereby completes its `acquire`. -/
def semStep (s : SemState) : SemEvent → SemState
  | .acq t =>
    if 0 < s.count then { s with count := s.count - 1, holders := t :: s.holders }
    else { s with tasks := s.tasks ++ [t] }
  | .rel t =>
    let c := s.count + 1
    match s.tasks with
    | [] => { count := c, tasks := [], holders := s.holders.erase t }
    | w :: rest => { count := c - 1, tasks := rest, holders := w :: s.holders.erase t }

/-- Which events are issued by a well-disciplined client (the only use
in the code: `acquire` by a fresh task, `release` exactly once by a
task that holds a permit). -/
def ValidStep (s : SemState) : SemEvent → Prop
  | .acq t => t ∉ s.holders ∧ t ∉ s.tasks
  | .rel t => t ∈ s.holders

/-- States reachable from a freshly constructed `new Semaphore(n)`. -/
inductive SemReach (n : Nat) : SemState → Prop
  | init : SemReach n ⟨(n : Int), [], []⟩
  | step {s : SemState} {e : SemEvent} :
      SemReach n s → ValidStep s e → SemReach n (semStep s e)

-- ===========================================================
-- Permit accounting of the retry recursion (C10)
-- ===========================================================

/-- Events of one outermost `callTranslationAPI` execution, tracking
the semaphore interactions of the whole recursive retry chain:
`acq`/`rel` are `semaphore.acquire()`/`semaphore.release()`,
`attemptCall k` is the axios attempt with index `k`, `backoff k` is the
backoff delay taken after failed attempt `k`. -/
inductive CallEvent where
  | acq
  | rel
  | attemptCall (k : Nat)
  | backoff (k : Nat)
deriving DecidableEq

/-- The tail of the event trace of `FT.callTranslationAPI oracle
maxRetries attempt`, after this attempt's own `acquire` has been
granted: perform the axios attempt; on success, a non-retryable
failure, or an exhausted retry budget the `finally` block releases the
permit and the call settles.  On a retryable failure the executor
sleeps through the backoff with the permit still held, and then
evaluates `return callTranslationAPI(params, attempt + 1)` — with no
`await`: the recursive call runs synchronously up to its own
`semaphore.acquire()` invocation and suspends there, then the
`finally` block runs and releases this attempt's permit, and the outer
promise merely adopts the still-pending inner promise.  Hence the
inner `acq` precedes this attempt's `rel`, and the `rel` precedes the
retry's axios attempt: the release happens as soon as the retry is
initiated, not after the recursive chain settles. -/
def apiTraceTail {α : Type} (oracle : Nat → Except JsError α)
    (maxRetries : Nat) (attempt : Nat) : List CallEvent :=
  CallEvent.attemptCall attempt ::
    (match oracle attempt with
     | .ok _ => [CallEvent.rel]
     | .error e =>
       if attempt ≥ maxRetries then [CallEvent.rel]
       else if FT.isRetryable e then
         CallEvent.backoff attempt :: CallEvent.acq :: CallEvent.rel ::
           apiTraceTail oracle maxRetries (attempt + 1)
       else [CallEvent.rel])
termination_by maxRetries - attempt
decreasing_by omega

/-- The full event trace of an outermost `callTranslationAPI`
execution: the initial `acquire`, then the tail. -/
def apiTrace {α : Type} (oracle : Nat → Except JsError α)
    (maxRetries : Nat) (attempt : Nat) : List CallEvent :=
  CallEvent.acq :: apiTraceTail oracle maxRetries attempt

/-- Number of `acquire` events in a trace fragment. -/
def numAcq (l : List CallEvent) : Nat :=
  l.countP (fun e => decide (e = CallEvent.acq))

/-- Number of `release` events in a trace fragment. -/
def numRel (l : List CallEvent) : Nat :=
  l.countP (fun e => decide (e = CallEvent.rel))

-- ===========================================================
-- Caches
-- ===========================================================

/-- A cache entry of `freetranslation.ts`'s `TranslationCache`. -/
structure CacheEntry where
  value : Str
  timestamp : Nat
deriving DecidableEq

/-- A JavaScript `Map` is modelled as an association list in insertion
order with unique keys; `Map.set` on an existing key updates it in
place, otherwise appends. -/
def mapSet {β : Type} : List (Str × β) → Str → β → List (Str × β)
  | [], key, v => [(key, v)]
  | p :: rest, key, v =>
    if p.1 = key then (key, v) :: rest else p :: mapSet rest key v

/-- `Map.delete(key)`: remove the (unique) entry with this key. -/
def mapDelete {β : Type} (c : List (Str × β)) (key : Str) : List (Str × β) :=
  c.eraseP (fun p => p.1 == key)

/-- `Map.get(key)`. -/
def mapGet {β : Type} (c : List (Str × β)) (key : Str) : Option β :=
  (c.find? (fun p => p.1 == key)).map Prod.snd

namespace FT

/-- The state of `freetranslation.ts`'s `TranslationCache` (a `Map` of
`CacheEntry` values). -/
abbrev Cache := List (Str × CacheEntry)

/-- `TranslationCache.get(key)` (lines 103–114): absent, or expired
(entry deleted, treated as absent), or the stored value. -/
def cacheGet (c : Cache) (ttl now : Nat) (key : Str) : Option Str × Cache :=
  match mapGet c key with
  | none => (none, c)
  | some entry =>
    if ttl < now - entry.timestamp then (none, mapDelete c key)
    else (some entry.value, c)

/-- `TranslationCache.cleanExpired()` (lines 134–142). -/
def cleanExpired (c : Cache) (ttl now : Nat) : Cache :=
  c.filter (fun p => !decide (ttl < now - p.2.timestamp))

/-- One step of `findOldestEntry`'s scan: keep the entry with the
strictly smallest timestamp seen so far (`oldestTime` starts at
`Infinity`, so the first entry is always taken; ties keep the earlier
entry). -/
def oldestStep (best : Option (Str × CacheEntry)) (p : Str × CacheEntry) :
    Option (Str × CacheEntry) :=
  match best with
  | none => some p
  | some q => if p.2.timestamp < q.2.timestamp then some p else some q

/-- `TranslationCache.findOldestEntry()` (lines 144–157): the key of
the first entry with the strictly smallest timestamp. -/
def findOldestEntry (c : Cache) : Option Str :=
  (c.foldl oldestStep none).map Prod.fst

/-- `TranslationCache.set(key, value)` (lines 116–132): purge expired
entries, evict the oldest entry if still at capacity, then insert. -/
def cacheSet (c : Cache) (maxSize ttl now : Nat) (key value : Str) : Cache :=
  let c1 := cleanExpired c ttl now
  let c2 :=
    if maxSize ≤ c1.length then
      match findOldestEntry c1 with
      | some oldestKey => mapDelete c1 oldestKey
      | none => c1
    else c1
  mapSet c2 key ⟨value, now⟩

end FT

namespace TR

/-- The state of the `api/translations.ts` variant's
`TranslationCache` (a plain `Map<string, string>`). -/
abbrev Cache := List (Str × Str)

/-- `TranslationCache.get(key)`. -/
def cacheGet (c : Cache) (key : Str) : Option Str := mapGet c key

/-- `TranslationCache.set(key, value)` (variant lines 57–64): delete
the entry under `this.cache.keys().next().value` (the first key in
insertion order) when at capacity, then insert. -/
def cacheSet (c : Cache) (maxSize : Nat) (key value : Str) : Cache :=
  let c1 :=
    if maxSize ≤ c.length then
      match c with
      | [] => []
      | p :: _ => mapDelete c p.1
    else c
  mapSet c1 key value

end TR

-- ===========================================================
-- Upstream response shape and response processing
-- ===========================================================

/-- The dynamic value in `response.data` of the free endpoint: a nested
array of strings (anything else the code treats as a shape failure). -/
inductive JVal where
  | jstr (s : Str)
  | jarr (elems : List JVal)
  | jother

namespace FT

/-- The collection loop of `processTranslationResponse` (lines
293–297): keep `sentence[0]` for every element that is a non-empty
array whose first element is a string. -/
def collectParts : List JVal → List Str
  | [] => []
  | JVal.jarr (JVal.jstr s :: _) :: rest => s :: collectParts rest
  | _ :: rest => collectParts rest

/-- The parsing part of `processTranslationResponse` (lines 283–303):
validate the shape of `response.data`, collect the translated
fragments, and join them with spaces. -/
def extractTranslation (data : JVal) : Except Str Str :=
  match data with
  | JVal.jarr elems =>
    if elems.length < 1 then Except.error "Respuesta de API inválida".toList
    else
      match elems with
      | JVal.jarr sentences :: _ =>
        let translatedParts := collectParts sentences
        if translatedParts.isEmpty then Except.error "No se encontró traducción".toList
        else Except.ok (joinSp translatedParts)
      | _ => Except.error "Formato de traducción inválido".toList
  | _ => Except.error "Respuesta de API inválida".toList

/-- `processTranslationResponse(response, cacheKey)` (lines 283–306):
parse, store the translated text in the cache, and return it. -/
def processTranslationResponse (response : JVal) (cacheKey : Str) (c : Cache)
    (maxSize ttl now : Nat) : Except Str Str × Cache :=
  match extractTranslation response with
  | Except.error m => (Except.error m, c)
  | Except.ok t => (Except.ok t, cacheSet c maxSize ttl now cacheKey t)

end FT

namespace FT

/-- The per-chunk body of the long-text branch of `translate` (lines
328–344): check the chunk's own cache key, otherwise call the API and
process the response.  `Promise.all` over the chunks is modelled
sequentially (the chunks' cache keys are pairwise independent of the
steps interleaved between them).  `apiCall q` models
`callTranslationAPI({q, source, target})`; the third component counts
`callTranslationAPI` invocations. -/
def translateChunks (apiCall : Str → Except JsError JVal)
    (maxSize ttl now : Nat) (targetLang sourceLang : Str) :
    List Str → Cache → Except Str (List Str) × Cache × Nat
  | [], c => (Except.ok [], c, 0)
  | chunk :: rest, c =>
    let chunkCacheKey := generateCacheKey sourceLang targetLang chunk
    let step : Except Str Str × Cache × Nat :=
      match cacheGet c ttl now chunkCacheKey with
      | (some cachedChunk, c0) =>
        if cachedChunk.isEmpty then
          match apiCall chunk with
          | Except.error e => (Except.error e.message, c0, 1)
          | Except.ok resp =>
            let p := processTranslationResponse resp chunkCacheKey c0 maxSize ttl now
            (p.1, p.2, 1)
        else (Except.ok cachedChunk, c0, 0)
      | (none, c0) =>
        match apiCall chunk with
        | Except.error e => (Except.error e.message, c0, 1)
        | Except.ok resp =>
          let p := processTranslationResponse resp chunkCacheKey c0 maxSize ttl now
          (p.1, p.2, 1)
    match step with
    | (Except.error m, c1, n) => (Except.error m, c1, n)
    | (Except.ok v, c1, n) =>
      match translateChunks apiCall maxSize ttl now targetLang sourceLang rest c1 with
      | (Except.error m, c2, n2) => (Except.error m, c2, n + n2)
      | (Except.ok vs, c2, n2) => (Except.ok (v :: vs), c2, n + n2)

/-- `translate(targetLang, sourceLang, text)` of `freetranslation.ts`
(lines 311–362).  `apiCall q` models `callTranslationAPI` for query
`q`; the result's third component counts `callTranslationAPI`
invocations; errors carry the `Error en traducción:`-wrapped message of
the underlying failure. -/
def translate (apiCall : Str → Except JsError JVal)
    (maxSize ttl maxTextLength now : Nat)
    (targetLang sourceLang text : Str) (c : Cache) :
    Except Str Str × Cache × Nat :=
  let cleanedText := normalizeText text
  if cleanedText.isEmpty then
    (Except.error "El texto a traducir no puede estar vacío.".toList, c, 0)
  else
    let cacheKey := generateCacheKey sourceLang targetLang cleanedText
    let hit := cacheGet c ttl now cacheKey
    let body : Cache → Except Str Str × Cache × Nat := fun c0 =>
      let wrap : Str → Str := fun m => "Error en traducción: ".toList ++ m
      if maxTextLength < cleanedText.length then
        let chunks := splitText cleanedText maxTextLength
        match translateChunks apiCall maxSize ttl now targetLang sourceLang chunks c0 with
        | (Except.error m, c1, n) => (Except.error (wrap m), c1, n)
        | (Except.ok translatedChunks, c1, n) =>
          let completeTranslation := joinSp translatedChunks
          (Except.ok completeTranslation,
           cacheSet c1 maxSize ttl now cacheKey completeTranslation, n)
      else
        match apiCall cleanedText with
        | Except.error e => (Except.error (wrap e.message), c0, 1)
        | Except.ok resp =>
          match processTranslationResponse resp cacheKey c0 maxSize ttl now with
          | (Except.error m, c1) => (Except.error (wrap m), c1, 1)
          | (Except.ok t, c1) => (Except.ok t, c1, 1)
    match hit with
    | (some cached, c0) => if cached.isEmpty then body c0 else (Except.ok cached, c0, 0)
    | (none, c0) => body c0

/-- `translateMultiple(texts, targetLang, sourceLang)` of
`freetranslation.ts` (lines 367–373): simply
`Promise.all(texts.map(text => translate(...)))`, modelled
sequentially; the counter totals the `callTranslationAPI`
invocations. -/
def translateMultiple (apiCall : Str → Except JsError JVal)
    (maxSize ttl maxTextLength now : Nat)
    (targetLang sourceLang : Str) :
    List Str → Cache → Except Str (List Str) × Cache × Nat
  | [], c => (Except.ok [], c, 0)
  | t :: rest, c =>
    match translate apiCall maxSize ttl maxTextLength now targetLang sourceLang t c with
    | (Except.error m, c1, n) => (Except.error m, c1, n)
    | (Except.ok v, c1, n) =>
      match translateMultiple apiCall maxSize ttl maxTextLength now targetLang sourceLang rest c1 with
      | (Except.error m, c2, n2) => (Except.error m, c2, n + n2)
      | (Except.ok vs, c2, n2) => (Except.ok (v :: vs), c2, n + n2)

end FT

namespace TR

/-- The `texts.forEach((text, index) => ...)` partition pass of the
`api/translations.ts` `translateMultiple` (lines 238–263), reading the
pre-state cache `c` (no cache write can happen before the pass
finishes, because every write awaits a network response).  Returns
(`finalTranslations`, `batchTexts`, `batchIndices`, the long texts with
their indices), all in traversal order. -/
def partitionPass (maxChunkLength : Nat) (sl tl : Str) (c : Cache) :
    List Str → Nat → List (Option Str) × List Str × List Nat × List (Nat × Str)
  | [], _ => ([], [], [], [])
  | t :: rest, i =>
    let r := partitionPass maxChunkLength sl tl c rest (i + 1)
    let cleaned := normalizeText t
    if cleaned.isEmpty then (some [] :: r.1, r.2.1, r.2.2.1, r.2.2.2)
    else if maxChunkLength < cleaned.length then
      (none :: r.1, r.2.1, r.2.2.1, (i, cleaned) :: r.2.2.2)
    else
      match cacheGet c (generateCacheKey sl tl cleaned) with
      | some cached =>
        if cached.isEmpty then (none :: r.1, cleaned :: r.2.1, i :: r.2.2.1, r.2.2.2)
        else (some cached :: r.1, r.2.1, r.2.2.1, r.2.2.2)
      | none => (none :: r.1, cleaned :: r.2.1, i :: r.2.2.1, r.2.2.2)

/-- `results.forEach(...)`: write translation `v` into
`finalTranslations` at each original index. -/
def writeBack : List (Option Str) → List Nat → List Str → List (Option Str)
  | final, i :: is, v :: vs => writeBack (final.set i (some v)) is vs
  | final, _, _ => final

/-- The cache stores performed by the same `results.forEach(...)`. -/
def cacheStoreBatch (maxSize : Nat) (sl tl : Str) : Cache → List Str → List Str → Cache
  | c, txt :: txts, v :: vs =>
    cacheStoreBatch maxSize sl tl
      (cacheSet c maxSize (generateCacheKey sl tl txt) v) txts vs
  | c, _, _ => c

/-- The short-text branch of the variant's `translate` (lines 196–210):
one API call, `translations[0].translatedText` (both a missing and an
empty text fail the `if (!translatedText)` check), cache store, with
the `catch` wrapping.  The oracle maps the `q` list to the
`translations[*].translatedText` list. -/
def shortCall (oracle : List Str → Except JsError (List Str)) (maxSize : Nat)
    (cacheKey cleanedText : Str) (c : Cache) : Except Str Str × Cache × Nat :=
  match oracle [cleanedText] with
  | Except.error e =>
    (Except.error ("Error en traducción: ".toList ++ e.message), c, 1)
  | Except.ok translations =>
    match translations.head? with
    | some tx =>
      if tx.isEmpty then
        (Except.error "Error en traducción: Respuesta de API inválida".toList, c, 1)
      else (Except.ok tx, cacheSet c maxSize cacheKey tx, 1)
    | none =>
      (Except.error "Error en traducción: Respuesta de API inválida".toList, c, 1)

mutual

/-- `translate(tl, sl, text)` of the `api/translations.ts` variant
(lines 173–211).  `fuel` bounds the `translate`/`translateMultiple`
mutual recursion depth (which the source bounds by construction: the
chunks produced for a long text are short, so the real depth is at most
2); `fuel = 0` is never reached in any theorem below.  The `Nat`
component counts `callTranslationAPI` invocations. -/
def translate (oracle : List Str → Except JsError (List Str))
    (maxChunkLength maxSize : Nat) :
    Nat → Str → Str → Str → Cache → Except Str Str × Cache × Nat
  | 0, _, _, _, c => (Except.error "recursion limit".toList, c, 0)
  | fuel + 1, tl, sl, text, c =>
    let cleanedText := normalizeText text
    if cleanedText.isEmpty then
      (Except.error "El texto a traducir no puede estar vacío.".toList, c, 0)
    else if maxChunkLength < cleanedText.length then
      let chunks := splitTextIntoChunks cleanedText maxChunkLength
      match translateMultiple oracle maxChunkLength maxSize fuel chunks tl sl c with
      | (Except.error m, c1, n) => (Except.error m, c1, n)
      | (Except.ok rs, c1, n) => (Except.ok (joinSp rs), c1, n)
    else
      let cacheKey := generateCacheKey sl tl cleanedText
      match cacheGet c cacheKey with
      | some cached =>
        if cached.isEmpty then shortCall oracle maxSize cacheKey cleanedText c
        else (Except.ok cached, c, 0)
      | none => shortCall oracle maxSize cacheKey cleanedText c

/-- The `await Promise.all(longTextPromises)` part of
`translateMultiple`: translate each long text, writing the result into
`finalTranslations` at its original index; a failure rejects the whole
batch un-wrapped. -/
def longLoop (oracle : List Str → Except JsError (List Str))
    (maxChunkLength maxSize : Nat) (fuel : Nat) :
    List (Nat × Str) → Str → Str → List (Option Str) → Cache →
    Except Str (List (Option Str)) × Cache × Nat
  | [], _, _, final, c => (Except.ok final, c, 0)
  | (i, txt) :: rest, tl, sl, final, c =>
    match translate oracle maxChunkLength maxSize fuel tl sl txt c with
    | (Except.error m, c1, n) => (Except.error m, c1, n)
    | (Except.ok v, c1, n) =>
      match longLoop oracle maxChunkLength maxSize fuel rest tl sl (final.set i (some v)) c1 with
      | (Except.error m, c2, n2) => (Except.error m, c2, n + n2)
      | (Except.ok final2, c2, n2) => (Except.ok final2, c2, n + n2)

/-- `translateMultiple(texts, tl, sl)` of the `api/translations.ts`
variant (lines 221–295): partition, one batched call for the pending
short texts, distribution of the ordered results, then the long-text
translations.  The `Nat` component counts `callTranslationAPI`
invocations. -/
def translateMultiple (oracle : List Str → Except JsError (List Str))
    (maxChunkLength maxSize : Nat) :
    Nat → List Str → Str → Str → Cache → Except Str (List Str) × Cache × Nat
  | 0, _, _, _, c => (Except.error "recursion limit".toList, c, 0)
  | fuel + 1, texts, tl, sl, c =>
    if texts.isEmpty then (Except.ok [], c, 0)
    else
      let part := partitionPass maxChunkLength sl tl c texts 0
      let final0 := part.1
      let batchTexts := part.2.1
      let batchIndices := part.2.2.1
      let longItems := part.2.2.2
      let batchStep : Except Str (List (Option Str) × Cache) × Nat :=
        if batchTexts.isEmpty then (Except.ok (final0, c), 0)
        else
          match oracle batchTexts with
          | Except.error e =>
            (Except.error ("Error en traducción múltiple: ".toList ++ e.message), 1)
          | Except.ok results =>
            if results.length ≠ batchTexts.length then
              (Except.error "Error en traducción múltiple: Respuesta de API incompleta".toList, 1)
            else
              (Except.ok (writeBack final0 batchIndices results,
                          cacheStoreBatch maxSize sl tl c batchTexts results), 1)
      match batchStep with
      | (Except.error m, n) => (Except.error m, c, n)
      | (Except.ok (final1, c1), n) =>
        match longLoop oracle maxChunkLength maxSize fuel longItems tl sl final1 c1 with
        | (Except.error m, c2, n2) => (Except.error m, c2, n + n2)
        | (Except.ok final2, c2, n2) =>
          (Except.ok (final2.map (fun o => o.getD [])), c2, n + n2)

end

end TR

namespace FT2

/-- `.replace(/&amp;/g, '&')` from `decodeHtmlEntities` (second
`freetranslation.ts` revision): leftmost, non-overlapping, and the
replacement is not rescanned. -/
def decAmp : Str → Str
  | '&' :: 'a' :: 'm' :: 'p' :: ';' :: rest => '&' :: decAmp rest
  | c :: rest => c :: decAmp rest
  | [] => []

/-- `.replace(/&lt;/g, '<')`. -/
def decLt : Str → Str
  | '&' :: 'l' :: 't' :: ';' :: rest => '<' :: decLt rest
  | c :: rest => c :: decLt rest
  | [] => []

/-- `.replace(/&gt;/g, '>')`. -/
def decGt : Str → Str
  | '&' :: 'g' :: 't' :: ';' :: rest => '>' :: decGt rest
  | c :: rest => c :: decGt rest
  | [] => []

/-- `.replace(/&quot;/g, '"')`. -/
def decQuot : Str → Str
  | '&' :: 'q' :: 'u' :: 'o' :: 't' :: ';' :: rest => '"' :: decQuot rest
  | c :: rest => c :: decQuot rest
  | [] => []

/-- `.replace(/&#39;/g, "'")`. -/
def decApos : Str → Str
  | '&' :: '#' :: '3' :: '9' :: ';' :: rest => Char.ofNat 39 :: decApos rest
  | c :: rest => c :: decApos rest
  | [] => []

/-- `decodeHtmlEntities(str)` (revision lines 189–197): the five
single-entity passes applied in source order. -/
def decodeHtmlEntities (s : Str) : Str :=
  if s.isEmpty then s
  else decApos (decQuot (decGt (decLt (decAmp s))))

/-- The collection loop of the revision's
`processTranslationResponse`, which decodes each fragment. -/
def collectParts : List JVal → List Str
  | [] => []
  | JVal.jarr (JVal.jstr s :: _) :: rest => decodeHtmlEntities s :: collectParts rest
  | _ :: rest => collectParts rest

/-- Scanner for `.replace(/\s+([.,!?;:])/g, '$1')`, run over the
reversed string: a whitespace run whose right neighbour is one of the
punctuation characters is dropped; the flag records that the previous
(original-order right) character was punctuation. -/
def cleanPunctGo : Bool → Str → Str
  | _, [] => []
  | afterPunct, c :: rest =>
    if afterPunct && isWs c then cleanPunctGo true rest
    else if isPunct c then c :: cleanPunctGo true rest
    else c :: cleanPunctGo false rest

/-- `joined.replace(/\s+([.,!?;:])/g, '$1')`: delete every whitespace
run that immediately precedes a punctuation character. -/
def cleanPunctSpace (l : Str) : Str := (cleanPunctGo false l.reverse).reverse

/-- `processTranslationResponse(response)` of the revision (lines
163–186): validate, collect decoded fragments, join with spaces,
delete whitespace before punctuation, and trim. -/
def processTranslationResponse (data : JVal) : Except Str Str :=
  match data with
  | JVal.jarr elems =>
    if elems.length < 1 then Except.error "Respuesta de API inválida".toList
    else
      match elems with
      | JVal.jarr sentences :: _ =>
        let translatedParts := collectParts sentences
        if translatedParts.isEmpty then Except.error "No se encontró traducción".toList
        else Except.ok (trim (cleanPunctSpace (joinSp translatedParts)))
      | _ => Except.error "Formato de traducción inválido".toList
  | _ => Except.error "Respuesta de API inválida".toList

/-- `detectLanguage(text)` of the revision (lines 268–291).  `apiCall
q sl tl` models `callTranslationAPI({q, source, target})`; the `Nat`
counts its invocations. -/
def detectLanguage (apiCall : Str → Str → Str → Except JsError JVal)
    (text : Str) : Except Str Str × Nat :=
  let cleanedText := normalizeText text
  if cleanedText.isEmpty then (Except.error "El texto no puede estar vacío".toList, 0)
  else
    let wrap : Str → Str := fun m => "Error en detección de idioma: ".toList ++ m
    match apiCall (cleanedText.take 1000) "auto".toList "en".toList with
    | Except.error e => (Except.error (wrap e.message), 1)
    | Except.ok resp =>
      match resp with
      | JVal.jarr l =>
        if 3 ≤ l.length then
          match l.get? 2 with
          | some (JVal.jstr detectedLang) => (Except.ok detectedLang, 1)
          | _ => (Except.error (wrap "No se pudo detectar el idioma".toList), 1)
        else (Except.error (wrap "No se pudo detectar el idioma".toList), 1)
      | _ => (Except.error (wrap "No se pudo detectar el idioma".toList), 1)

/-- The `options?: { signal?: AbortSignal }` argument of the revision's
`translate`.  `signal = some b` models a supplied `AbortSignal` whose
`aborted` flag is `b`; `none` models an absent signal. -/
structure TranslateOptions where
  signal : Option Bool
deriving DecidableEq

/-- The `chunks.map(...)` of the revision's long-text branch (lines
226–236), modelled sequentially. -/
def translateChunks (apiCall : Str → Str → Str → Except JsError JVal)
    (effectiveSource targetLang : Str) : List Str → Except Str (List Str) × Nat
  | [] => (Except.ok [], 0)
  | chunk :: rest =>
    match apiCall chunk effectiveSource targetLang with
    | Except.error e => (Except.error e.message, 1)
    | Except.ok resp =>
      match processTranslationResponse resp with
      | Except.error m => (Except.error m, 1)
      | Except.ok v =>
        match translateChunks apiCall effectiveSource targetLang rest with
        | (Except.error m, n) => (Except.error m, n + 1)
        | (Except.ok vs, n) => (Except.ok (v :: vs), n + 1)

/-- `translate(targetLang, sourceLang, text, options?)` of the second
`freetranslation.ts` revision (lines 202–252).  Note that the body
never reads `options` — in the source the `signal` is not forwarded to
axios or anywhere else. -/
def translate (apiCall : Str → Str → Str → Except JsError JVal)
    (maxTextLength : Nat) (targetLang sourceLang text : Str)
    (options : Option TranslateOptions) : Except Str Str × Nat :=
  let cleanedText := normalizeText text
  if cleanedText.isEmpty then
    (Except.error "El texto a traducir no puede estar vacío.".toList, 0)
  else
    let det : Str × Nat :=
      if sourceLang = "auto".toList ∨ sourceLang = "auto-detect".toList then
        match detectLanguage apiCall cleanedText with
        | (Except.ok l, n) => (l, n)
        | (Except.error _, n) => ("auto".toList, n)
      else (sourceLang, 0)
    let effectiveSource := det.1
    let wrap : Str → Str := fun m => "Error en traducción: ".toList ++ m
    if maxTextLength < cleanedText.length then
      match translateChunks apiCall effectiveSource targetLang
          (splitText cleanedText maxTextLength) with
      | (Except.error m, n) => (Except.error (wrap m), det.2 + n)
      | (Except.ok translatedChunks, n) => (Except.ok (joinSp translatedChunks), det.2 + n)
    else
      match apiCall cleanedText effectiveSource targetLang with
      | Except.error e => (Except.error (wrap e.message), det.2 + 1)
      | Except.ok resp =>
        match processTranslationResponse resp with
        | Except.error m => (Except.error (wrap m), det.2 + 1)
        | Except.ok t => (Except.ok t, det.2 + 1)

end FT2

namespace FT

/-- Insert a sequence of key/value pairs into the TTL cache at one
instant `now` (the cache-eviction scenario of the spec). -/
def insertAll (maxSize ttl now : Nat) (c : Cache) : List (Str × Str) → Cache
  | [] => c
  | (k, v) :: rest => insertAll maxSize ttl now (cacheSet c maxSize ttl now k v) rest

end FT

namespace TR

/-- Insert a sequence of key/value pairs into the insertion-order
cache (the cache-eviction scenario of the spec). -/
def insertAll (maxSize : Nat) (c : Cache) : List (Str × Str) → Cache
  | [] => c
  | (k, v) :: rest => insertAll maxSize (cacheSet c maxSize k v) rest

end TR

-- ===========================================================
-- Theorems
-- ===========================================================

theorem callAPI_fail_count {α : Type} (oracle : Nat → Except JsError α)
    (maxRetries : Nat) (e : JsError)
    (hfail : ∀ k, k ≤ maxRetries →
      ∃ err, oracle k = Except.error err ∧ FT.isRetryable err = true)
    (hlast : oracle maxRetries = Except.error e) :
    ∀ d attempt, attempt + d = maxRetries →
      FT.callTranslationAPI oracle maxRetries attempt = (Except.error e, d + 1) := by
  intro d
  induction d with
  | zero =>
    intro attempt h
    have h0 : attempt = maxRetries := by omega
    subst h0
    rw [FT.callTranslationAPI]
    simp [hlast]
  | succ d ih =>
    intro attempt h
    have h1 : attempt < maxRetries := by omega
    obtain ⟨err, ho, hr⟩ := hfail attempt (by omega)
    rw [FT.callTranslationAPI]
    simp only [ho, hr, if_true]
    rw [if_neg (by omega)]
    simp only [ih (attempt + 1) (by omega)]

theorem callAPI_count_le {α : Type} (oracle : Nat → Except JsError α)
    (maxRetries : Nat) :
    ∀ d attempt, maxRetries - attempt ≤ d →
      (FT.callTranslationAPI oracle maxRetries attempt).2 ≤ maxRetries - attempt + 1 := by
  intro d
  induction d with
  | zero =>
    intro attempt h
    rw [FT.callTranslationAPI]
    cases ho : oracle attempt with
    | ok r => simp
    | error e =>
      dsimp only
      rw [if_pos (show attempt ≥ maxRetries by omega)]
      show 1 ≤ maxRetries - attempt + 1
      omega
  | succ d ih =>
    intro attempt h
    rw [FT.callTranslationAPI]
    cases ho : oracle attempt with
    | ok r => simp
    | error e =>
      dsimp only
      by_cases hge : attempt ≥ maxRetries
      · rw [if_pos hge]
        show 1 ≤ maxRetries - attempt + 1
        omega
      · rw [if_neg hge]
        by_cases hr : FT.isRetryable e = true
        · rw [if_pos hr]
          have h2 := ih (attempt + 1) (by omega)
          dsimp only
          omega
        · rw [if_neg hr]
          show 1 ≤ maxRetries - attempt + 1
          omega

/-- **C5** (confirmed): when every attempt up to `maxRetries` fails with
a retryable failure, `callTranslationAPI` performs exactly
`maxRetries + 1` attempts (indices `0 … maxRetries`) and propagates the
final failure; moreover the retry recursion always terminates, making
at most `maxRetries - attempt + 1` attempts from any starting attempt
index, because the attempt counter strictly increases and is bounded by
`maxRetries`. -/
theorem claim_C5_retry_exhaustion {α : Type} (oracle : Nat → Except JsError α)
    (maxRetries : Nat) (e : JsError)
    (hfail : ∀ k, k ≤ maxRetries →
      ∃ err, oracle k = Except.error err ∧ FT.isRetryable err = true)
    (hlast : oracle maxRetries = Except.error e) :
    FT.callTranslationAPI oracle maxRetries 0 = (Except.error e, maxRetries + 1)
    ∧ ∀ (oracle2 : Nat → Except JsError α) (attempt : Nat),
        (FT.callTranslationAPI oracle2 maxRetries attempt).2 ≤ maxRetries - attempt + 1 := by
  constructor
  · have := callAPI_fail_count oracle maxRetries e hfail hlast maxRetries 0 (by omega)
    simpa using this
  · intro oracle2 attempt
    exact callAPI_count_le oracle2 maxRetries (maxRetries - attempt) attempt (by omega)

/-- Witness for C5: with a timeout on every attempt and `RETRIES = 2`,
the executor makes exactly 3 attempts and rejects with the timeout. -/
theorem claim_C5_retry_exhaustion_witness :
    FT.callTranslationAPI (α := Unit)
      (fun _ => Except.error ⟨true, some "ECONNABORTED".toList, none, "timeout".toList⟩) 2 0
      = (Except.error ⟨true, some "ECONNABORTED".toList, none, "timeout".toList⟩, 3) :=
  (claim_C5_retry_exhaustion
    (fun _ => Except.error ⟨true, some "ECONNABORTED".toList, none, "timeout".toList⟩) 2
    ⟨true, some "ECONNABORTED".toList, none, "timeout".toList⟩
    (fun k _ => ⟨⟨true, some "ECONNABORTED".toList, none, "timeout".toList⟩, rfl, by decide⟩)
    rfl).1

theorem FT_isRetryable_iff (e : JsError) :
    FT.isRetryable e = true ↔
      e.isAxiosError = true ∧
        (e.code = some "ECONNABORTED".toList ∨ e.status = some 429 ∨
         500 ≤ e.status.getD 0 ∨ e.status = none ∨ e.status = some 0) := by
  unfold FT.isRetryable statusOr500
  cases hs : e.status with
  | none =>
    simp [hs]
  | some s =>
    by_cases h0 : s = 0
    · subst h0
      simp [hs]
    · simp only [hs, if_neg h0, Bool.and_eq_true, Bool.or_eq_true, beq_iff_eq,
        decide_eq_true_eq, Option.getD_some, Option.some.injEq, reduceCtorEq, h0,
        or_false, false_or]
      constructor
      · rintro ⟨ha, hrest⟩
        exact ⟨ha, by tauto⟩
      · rintro ⟨ha, hrest⟩
        exact ⟨ha, by tauto⟩

theorem TR_isRetryable_iff (e : JsError) :
    TR.isRetryable e = true ↔
      e.isAxiosError = true ∧
        (e.code = some "ECONNABORTED".toList ∨
         500 ≤ e.status.getD 0 ∨ e.status = none ∨ e.status = some 0) := by
  unfold TR.isRetryable statusOr500
  cases hs : e.status with
  | none =>
    simp [hs]
  | some s =>
    by_cases h0 : s = 0
    · subst h0
      simp [hs]
    · simp only [hs, if_neg h0, Bool.and_eq_true, Bool.or_eq_true, beq_iff_eq,
        decide_eq_true_eq, Option.getD_some, Option.some.injEq, reduceCtorEq, h0,
        or_false, false_or]
      constructor
      · rintro ⟨ha, hrest⟩
        exact ⟨ha, by tauto⟩
      · rintro ⟨ha, hrest⟩
        exact ⟨ha, by tauto⟩

/-- **C4** (corrected): a failed attempt with `attempt < maxRetries` is
retried if and only if it is an axios failure that is a timeout
(`ECONNABORTED`), carries HTTP status 429 (`freetranslation.ts` only —
the `api/translations.ts` variant has no 429 case and does not retry
429), carries an HTTP status ≥ 500, or carries no usable status at all
(no response, or status 0 — `error.response?.status || 500` defaults
these to 500, so e.g. a response-less connection failure is retried).
Stated behaviourally: an executor whose attempt 0 fails with `e` and
whose attempt 1 succeeds with `r` retries exactly under this
classification. -/
theorem claim_C4_retry_classification {α : Type} (e : JsError) (r : α)
    (maxRetries : Nat) (h : 1 ≤ maxRetries) :
    (FT.callTranslationAPI (fun k => if k = 0 then Except.error e else Except.ok r)
        maxRetries 0 =
      if e.isAxiosError = true ∧
         (e.code = some "ECONNABORTED".toList ∨ e.status = some 429 ∨
          500 ≤ e.status.getD 0 ∨ e.status = none ∨ e.status = some 0)
      then (Except.ok r, 2) else (Except.error e, 1))
    ∧ (TR.callTranslationAPI (fun k => if k = 0 then Except.error e else Except.ok r)
        maxRetries 0 =
      if e.isAxiosError = true ∧
         (e.code = some "ECONNABORTED".toList ∨
          500 ≤ e.status.getD 0 ∨ e.status = none ∨ e.status = some 0)
      then (Except.ok r, 2) else (Except.error e, 1)) := by
  have hm : ¬(0 ≥ maxRetries) := by omega
  constructor
  · by_cases hr : FT.isRetryable e = true
    · rw [if_pos ((FT_isRetryable_iff e).mp hr)]
      rw [FT.callTranslationAPI]
      simp only [if_pos rfl, reduceIte, hm, if_false, hr, if_true]
      rw [FT.callTranslationAPI]
      simp
    · rw [if_neg (fun hc => hr ((FT_isRetryable_iff e).mpr hc))]
      rw [FT.callTranslationAPI]
      simp only [if_pos rfl, reduceIte, hm, if_false, hr, if_true]
      simp
  · by_cases hr : TR.isRetryable e = true
    · rw [if_pos ((TR_isRetryable_iff e).mp hr)]
      rw [TR.callTranslationAPI]
      simp only [if_pos rfl, reduceIte, hm, if_false, hr, if_true]
      rw [TR.callTranslationAPI]
      simp
    · rw [if_neg (fun hc => hr ((TR_isRetryable_iff e).mpr hc))]
      rw [TR.callTranslationAPI]
      simp only [if_pos rfl, reduceIte, hm, if_false, hr, if_true]
      simp

/-- **C4 counterexample**: the claim's "retried iff timeout, 429, or
status ≥ 500; every other failure propagates immediately" is false on
the code: a response-less axios failure (`ECONNREFUSED`, no HTTP
response, hence no status) is retried by `freetranslation.ts` (2
attempts, then success), although it is neither a timeout nor a 429 nor
a ≥ 500 status; and the `api/translations.ts` variant does not retry a
429 response (1 attempt, immediate propagation), although 429 is in the
claim's retryable set. -/
theorem claim_C4_counterexample :
    (FT.callTranslationAPI (α := Unit)
        (fun k => if k = 0 then
          Except.error ⟨true, some "ECONNREFUSED".toList, none, "conn".toList⟩
          else Except.ok ()) 5 0
      = (Except.ok (), 2))
    ∧ (⟨true, some "ECONNREFUSED".toList, none, "conn".toList⟩ : JsError).code ≠
        some "ECONNABORTED".toList
    ∧ (⟨true, some "ECONNREFUSED".toList, none, "conn".toList⟩ : JsError).status = none
    ∧ (TR.callTranslationAPI (α := Unit)
        (fun k => if k = 0 then Except.error ⟨true, none, some 429, "rate".toList⟩
          else Except.ok ()) 3 0
      = (Except.error ⟨true, none, some 429, "rate".toList⟩, 1)) := by
  refine ⟨?_, by decide, rfl, ?_⟩
  · rw [FT.callTranslationAPI]
    simp only [if_pos rfl, reduceIte,
      (by decide : FT.isRetryable
        ⟨true, some "ECONNREFUSED".toList, none, "conn".toList⟩ = true), if_true]
    rw [FT.callTranslationAPI]
    simp
  · rw [TR.callTranslationAPI]
    simp only [if_pos rfl, reduceIte]
    rw [if_neg (by decide : ¬TR.isRetryable ⟨true, none, some 429, "rate".toList⟩ = true)]
    norm_num

/-- Witness for C4: an axios failure with HTTP status 503 is retried by
both variants (2 attempts, then success). -/
theorem claim_C4_retry_classification_witness :
    (FT.callTranslationAPI (α := Unit)
        (fun k => if k = 0 then Except.error ⟨true, none, some 503, "srv".toList⟩
          else Except.ok ()) 5 0 = (Except.ok (), 2))
    ∧ (TR.callTranslationAPI (α := Unit)
        (fun k => if k = 0 then Except.error ⟨true, none, some 503, "srv".toList⟩
          else Except.ok ()) 5 0 = (Except.ok (), 2)) := by
  have h := claim_C4_retry_classification (α := Unit)
    ⟨true, none, some 503, "srv".toList⟩ () 5 (by omega)
  constructor
  · have h1 := h.1
    rw [if_pos (by simp)] at h1
    exact h1
  · have h2 := h.2
    rw [if_pos (by simp)] at h2
    exact h2

/-- **C9** (code bug): the revision's `translate` accepts
`options?: { signal?: AbortSignal }` but never reads it, so the abort
signal is not threaded through to the network call and an
already-fired signal changes nothing: the result of `translate` is
identical for every `options` value, and with a fired signal the
upstream request still happens (one API call) and still produces the
translation instead of being aborted. -/
theorem claim_C9_translate_ignores_abort_signal :
    (∀ (apiCall : Str → Str → Str → Except JsError JVal) (maxTextLength : Nat)
        (tl sl t : Str) (opts : Option FT2.TranslateOptions),
      FT2.translate apiCall maxTextLength tl sl t opts =
        FT2.translate apiCall maxTextLength tl sl t none)
    ∧ FT2.translate
        (fun _ _ _ => Except.ok (JVal.jarr [JVal.jarr [JVal.jarr [JVal.jstr "Hello".toList]]]))
        5000 "en".toList "es".toList "Hola".toList
        (some ⟨some true⟩)
      = (Except.ok "Hello".toList, 1) := by
  constructor
  · intro apiCall maxTextLength tl sl t opts
    rfl
  · rfl

theorem semReach_count_sum {n : Nat} {s : SemState} (hs : SemReach n s) :
    0 ≤ s.count ∧ s.count + s.holders.length = (n : Int) := by
  induction hs with
  | init => simp
  | step hreach hvalid ih =>
    rename_i s' e
    obtain ⟨hpos, hsum⟩ := ih
    cases e with
    | acq t =>
      by_cases hc : 0 < s'.count
      · simp only [semStep, if_pos hc, List.length_cons]
        constructor
        · omega
        · push_cast
          omega
      · simp only [semStep, if_neg hc]
        exact ⟨hpos, hsum⟩
    | rel t =>
      have hmem : t ∈ s'.holders := hvalid
      have hlen : (s'.holders.erase t).length = s'.holders.length - 1 :=
        List.length_erase_of_mem hmem
      have hpos' : 1 ≤ s'.holders.length := List.length_pos.mpr (by
        intro hnil
        rw [hnil] at hmem
        exact absurd hmem (List.not_mem_nil t))
      cases ht : s'.tasks with
      | nil =>
        simp only [semStep, ht]
        constructor
        · omega
        · simp only [hlen]
          omega
      | cons w rest =>
        simp only [semStep, ht, List.length_cons]
        constructor
        · omega
        · push_cast [hlen]
          omega

/-- **C3** (confirmed): over every reachable semaphore state under the
code's usage discipline (acquire by a fresh task, release by a permit
holder), the permit count is never negative and at most `n` callers are
between a completed `acquire()` and the matching `release()`; and when
the waiting queue is non-empty, `release()` hands the permit to the
task dequeued from the front of the FIFO queue (the longest waiting),
leaving the observable permit count unchanged. -/
theorem claim_C3_semaphore_invariants (n : Nat) :
    (∀ s : SemState, SemReach n s → 0 ≤ s.count ∧ s.holders.length ≤ n)
    ∧ (∀ (s : SemState) (t w : Nat) (rest : List Nat), s.tasks = w :: rest →
        semStep s (SemEvent.rel t) =
          { count := s.count, tasks := rest, holders := w :: s.holders.erase t }) := by
  constructor
  · intro s hs
    obtain ⟨hpos, hsum⟩ := semReach_count_sum hs
    constructor
    · exact hpos
    · omega
  · intro s t w rest ht
    simp only [semStep, ht]
    have : s.count + 1 - 1 = s.count := by omega
    rw [this]

/-- Witness for C3: a concrete reachable state (after one acquire on a
2-permit semaphore) satisfies the invariant, and a concrete release
with a waiting queue hands the permit to the front waiter with the
count unchanged. -/
theorem claim_C3_semaphore_invariants_witness :
    (0 ≤ (semStep ⟨(2 : Int), [], []⟩ (SemEvent.acq 4)).count ∧
      (semStep ⟨(2 : Int), [], []⟩ (SemEvent.acq 4)).holders.length ≤ 2)
    ∧ semStep ⟨(0 : Int), [7, 8], [1]⟩ (SemEvent.rel 1) =
        { count := (0 : Int), tasks := [8], holders := [7, 1].erase 1 } := by
  constructor
  · exact (claim_C3_semaphore_invariants 2).1 _
      (SemReach.step SemReach.init (by constructor <;> simp))
  · have h := (claim_C3_semaphore_invariants 2).2 ⟨(0 : Int), [7, 8], [1]⟩ 1 7 [8] rfl
    simpa using h

theorem apiTraceTail_stop {α : Type} {oracle : Nat → Except JsError α} {maxR attempt : Nat}
    (h : ∀ e, oracle attempt = Except.error e →
      attempt ≥ maxR ∨ FT.isRetryable e = false) :
    apiTraceTail oracle maxR attempt =
      [CallEvent.attemptCall attempt, CallEvent.rel] := by
  rw [apiTraceTail]
  cases ho : oracle attempt with
  | ok r => simp
  | error e =>
    rcases h e ho with hge | hnr
    · simp [if_pos hge]
    · simp [hnr]

theorem apiTraceTail_retry {α : Type} {oracle : Nat → Except JsError α} {maxR attempt : Nat}
    {e : JsError} (ho : oracle attempt = Except.error e) (hlt : attempt < maxR)
    (hr : FT.isRetryable e = true) :
    apiTraceTail oracle maxR attempt =
      CallEvent.attemptCall attempt :: CallEvent.backoff attempt :: CallEvent.acq ::
        CallEvent.rel :: apiTraceTail oracle maxR (attempt + 1) := by
  rw [apiTraceTail]
  rw [ho]
  simp only [hr, if_true]
  rw [if_neg (by omega : ¬attempt ≥ maxR)]

theorem apiTraceTail_held {α : Type} (oracle : Nat → Except JsError α) (maxR : Nat) :
    ∀ d attempt, maxR - attempt ≤ d →
      (∀ pre ev post k,
        (ev = CallEvent.attemptCall k ∨ ev = CallEvent.backoff k) →
        apiTraceTail oracle maxR attempt = pre ++ ev :: post →
        numAcq pre = numRel pre)
      ∧ (∀ pre post, apiTraceTail oracle maxR attempt = pre ++ post → post ≠ [] →
          numRel pre ≤ numAcq pre)
      ∧ numRel (apiTraceTail oracle maxR attempt) =
          numAcq (apiTraceTail oracle maxR attempt) + 1 := by
  intro d
  induction d with
  | zero =>
    intro attempt hd
    rw [apiTraceTail_stop (fun e _ => Or.inl (by omega))]
    refine ⟨?_, ?_, by simp [numAcq, numRel]⟩
    · intro pre ev post k hev htr
      match pre, htr with
      | [], htr => simp [numAcq, numRel]
      | [x], htr =>
        simp only [List.cons_append, List.nil_append, List.cons.injEq] at htr
        obtain ⟨-, hev', -⟩ := htr
        rcases hev with hev | hev <;> simp [hev] at hev'
      | x :: y :: p2, htr =>
        simp only [List.cons_append, List.cons.injEq] at htr
        obtain ⟨-, -, hnil⟩ := htr
        exact absurd hnil.symm (by simp)
    · intro pre post htr hpost
      match pre, htr with
      | [], htr => simp [numAcq, numRel]
      | [x], htr =>
        simp only [List.cons_append, List.nil_append, List.cons.injEq] at htr
        obtain ⟨rfl, -⟩ := htr
        simp [numAcq, numRel]
      | [x, y], htr =>
        simp only [List.cons_append, List.nil_append, List.cons.injEq] at htr
        obtain ⟨-, -, hnil⟩ := htr
        exact absurd hnil.symm hpost
      | x :: y :: z :: p3, htr =>
        simp only [List.cons_append, List.cons.injEq] at htr
        obtain ⟨-, -, hnil⟩ := htr
        exact absurd hnil.symm (by simp)
  | succ d ih =>
    intro attempt hd
    by_cases hstop : ∀ e, oracle attempt = Except.error e →
        attempt ≥ maxR ∨ FT.isRetryable e = false
    · rw [apiTraceTail_stop hstop]
      refine ⟨?_, ?_, by simp [numAcq, numRel]⟩
      · intro pre ev post k hev htr
        match pre, htr with
        | [], htr => simp [numAcq, numRel]
        | [x], htr =>
          simp only [List.cons_append, List.nil_append, List.cons.injEq] at htr
          obtain ⟨-, hev', -⟩ := htr
          rcases hev with hev | hev <;> simp [hev] at hev'
        | x :: y :: p2, htr =>
          simp only [List.cons_append, List.cons.injEq] at htr
          obtain ⟨-, -, hnil⟩ := htr
          exact absurd hnil.symm (by simp)
      · intro pre post htr hpost
        match pre, htr with
        | [], htr => simp [numAcq, numRel]
        | [x], htr =>
          simp only [List.cons_append, List.nil_append, List.cons.injEq] at htr
          obtain ⟨rfl, -⟩ := htr
          simp [numAcq, numRel]
        | [x, y], htr =>
          simp only [List.cons_append, List.nil_append, List.cons.injEq] at htr
          obtain ⟨-, -, hnil⟩ := htr
          exact absurd hnil.symm hpost
        | x :: y :: z :: p3, htr =>
          simp only [List.cons_append, List.cons.injEq] at htr
          obtain ⟨-, -, hnil⟩ := htr
          exact absurd hnil.symm (by simp)
    · push_neg at hstop
      obtain ⟨e, ho, hlt, hr⟩ := hstop
      have hr' : FT.isRetryable e = true := by
        cases hb : FT.isRetryable e
        · exact absurd hb hr
        · rfl
      rw [apiTraceTail_retry ho (by omega) hr']
      obtain ⟨ihA, ihB, ihC⟩ := ih (attempt + 1) (by omega)
      refine ⟨?_, ?_, ?_⟩
      · intro pre ev post k hev htr
        match pre, htr with
        | [], htr => simp [numAcq, numRel]
        | [x], htr =>
          simp only [List.cons_append, List.nil_append, List.cons.injEq] at htr
          obtain ⟨hx, hev', -⟩ := htr
          rcases hev with hev | hev <;> rw [hev] at hev'
          · simp at hev'
          · simp [numAcq, numRel, ← hx]
        | [x, y], htr =>
          simp only [List.cons_append, List.nil_append, List.cons.injEq] at htr
          obtain ⟨-, -, hev', -⟩ := htr
          rcases hev with hev | hev <;> simp [hev] at hev'
        | [x, y, z], htr =>
          simp only [List.cons_append, List.nil_append, List.cons.injEq] at htr
          obtain ⟨-, -, -, hev', -⟩ := htr
          rcases hev with hev | hev <;> simp [hev] at hev'
        | x :: y :: z :: w :: p4, htr =>
          simp only [List.cons_append, List.cons.injEq] at htr
          obtain ⟨rfl, rfl, rfl, rfl, htail⟩ := htr
          have hrec := ihA p4 ev post k hev htail
          simp only [numAcq, numRel, List.countP_cons] at hrec ⊢
          simp
          omega
      · intro pre post htr hpost
        match pre, htr with
        | [], htr => simp [numAcq, numRel]
        | [x], htr =>
          simp only [List.cons_append, List.nil_append, List.cons.injEq] at htr
          obtain ⟨rfl, -⟩ := htr
          simp [numAcq, numRel]
        | [x, y], htr =>
          simp only [List.cons_append, List.nil_append, List.cons.injEq] at htr
          obtain ⟨rfl, rfl, -⟩ := htr
          simp [numAcq, numRel]
        | [x, y, z], htr =>
          simp only [List.cons_append, List.nil_append, List.cons.injEq] at htr
          obtain ⟨rfl, rfl, rfl, -⟩ := htr
          simp [numAcq, numRel]
        | [x, y, z, w], htr =>
          simp only [List.cons_append, List.nil_append, List.cons.injEq] at htr
          obtain ⟨rfl, rfl, rfl, rfl, -⟩ := htr
          simp [numAcq, numRel]
        | x :: y :: z :: w :: v :: p5, htr =>
          simp only [List.cons_append, List.cons.injEq] at htr
          obtain ⟨rfl, rfl, rfl, rfl, htail⟩ := htr
          have hrec := ihB (v :: p5) post htail hpost
          simp only [numAcq, numRel, List.countP_cons] at hrec ⊢
          simp at hrec ⊢
          omega
      · simp only [numAcq, numRel, List.countP_cons] at ihC ⊢
        simp at ihC ⊢
        omega

/-- **C10** (corrected): the `finally` of `callTranslationAPI` releases
the attempt's permit as soon as a retry is initiated (the
`return callTranslationAPI(params, attempt + 1)` is not awaited), so an
execution of the retry chain holds exactly **one** permit just before
each axios attempt and throughout each backoff delay — not `k + 1`.
What does hold: the retry's `acquire()` is invoked synchronously before
the outer `finally`'s `release()`, so at every point strictly inside
the trace the chain retains at least one outstanding permit (the permit
count never observably returns to the chain-free level between
attempts), and the full trace is balanced. -/
theorem claim_C10_permit_discipline {α : Type} (oracle : Nat → Except JsError α)
    (maxRetries : Nat) :
    (∀ pre post k, apiTrace oracle maxRetries 0 = pre ++ CallEvent.attemptCall k :: post →
        numAcq pre = numRel pre + 1)
    ∧ (∀ pre post k, apiTrace oracle maxRetries 0 = pre ++ CallEvent.backoff k :: post →
        numAcq pre = numRel pre + 1)
    ∧ (∀ pre post, apiTrace oracle maxRetries 0 = pre ++ post → pre ≠ [] → post ≠ [] →
        numRel pre + 1 ≤ numAcq pre)
    ∧ numAcq (apiTrace oracle maxRetries 0) = numRel (apiTrace oracle maxRetries 0) := by
  obtain ⟨hA, hB, hC⟩ := apiTraceTail_held oracle maxRetries maxRetries 0 (by omega)
  refine ⟨?_, ?_, ?_, ?_⟩
  · intro pre post k htr
    match pre, htr with
    | [], htr =>
      rw [apiTrace] at htr
      simp at htr
    | x :: pre1, htr =>
      rw [apiTrace] at htr
      simp only [List.cons_append, List.cons.injEq] at htr
      obtain ⟨rfl, htail⟩ := htr
      have := hA pre1 _ post k (Or.inl rfl) htail
      simp only [numAcq, numRel, List.countP_cons] at this ⊢
      simp
      omega
  · intro pre post k htr
    match pre, htr with
    | [], htr =>
      rw [apiTrace] at htr
      simp at htr
    | x :: pre1, htr =>
      rw [apiTrace] at htr
      simp only [List.cons_append, List.cons.injEq] at htr
      obtain ⟨rfl, htail⟩ := htr
      have := hA pre1 _ post k (Or.inr rfl) htail
      simp only [numAcq, numRel, List.countP_cons] at this ⊢
      simp
      omega
  · intro pre post htr hpre hpost
    match pre, htr with
    | [], htr => exact absurd rfl hpre
    | x :: pre1, htr =>
      rw [apiTrace] at htr
      simp only [List.cons_append, List.cons.injEq] at htr
      obtain ⟨rfl, htail⟩ := htr
      have := hB pre1 post htail hpost
      simp only [numAcq, numRel, List.countP_cons] at this ⊢
      simp
      omega
  · rw [apiTrace]
    simp only [numAcq, numRel, List.countP_cons] at hC ⊢
    simp at hC ⊢
    omega

/-- **C10 counterexample**: with a timeout on attempt 0 and success on
attempt 1, the trace is `[acq, attempt 0, backoff 0, acq, rel,
attempt 1, rel]` — the release of attempt 0's permit occurs *before*
attempt 1's axios call (so the permit is not held until the recursive
chain completes), and just before attempt 1 the chain holds
`2 acq − 1 rel = 1` permit, not the claimed `k + 1 = 2`. -/
theorem claim_C10_counterexample :
    apiTrace (α := Nat)
      (fun k => if k = 0 then
        Except.error ⟨true, some "ECONNABORTED".toList, none, "t".toList⟩
        else Except.ok 0) 5 0 =
      [CallEvent.acq, CallEvent.attemptCall 0, CallEvent.backoff 0, CallEvent.acq,
       CallEvent.rel, CallEvent.attemptCall 1, CallEvent.rel]
    ∧ numAcq [CallEvent.acq, CallEvent.attemptCall 0, CallEvent.backoff 0,
        CallEvent.acq, CallEvent.rel] ≠
      numRel [CallEvent.acq, CallEvent.attemptCall 0, CallEvent.backoff 0,
        CallEvent.acq, CallEvent.rel] + 2 := by
  constructor
  · rw [apiTrace,
      apiTraceTail_retry (e := ⟨true, some "ECONNABORTED".toList, none, "t".toList⟩)
        (by norm_num) (by omega) (by decide),
      apiTraceTail_stop (fun e he => by norm_num at he; exact absurd he (by simp))]
  · decide

/-- Witness for C10: on the same one-retry trace, the prefix before
attempt 1's axios call holds exactly one permit (two acquires, one
release). -/
theorem claim_C10_permit_discipline_witness :
    numAcq [CallEvent.acq, CallEvent.attemptCall 0, CallEvent.backoff 0,
        CallEvent.acq, CallEvent.rel] =
      numRel [CallEvent.acq, CallEvent.attemptCall 0, CallEvent.backoff 0,
        CallEvent.acq, CallEvent.rel] + 1 :=
  (claim_C10_permit_discipline (α := Nat)
    (fun k => if k = 0 then
      Except.error ⟨true, some "ECONNABORTED".toList, none, "t".toList⟩
      else Except.ok 0) 5).1
    [CallEvent.acq, CallEvent.attemptCall 0, CallEvent.backoff 0,
      CallEvent.acq, CallEvent.rel]
    [CallEvent.rel] 1
    (by
      rw [apiTrace,
        apiTraceTail_retry (e := ⟨true, some "ECONNABORTED".toList, none, "t".toList⟩)
          (by norm_num) (by omega) (by decide),
        apiTraceTail_stop (fun e he => by norm_num at he; exact absurd he (by simp))]
      norm_num)

theorem mapSet_length_le {β : Type} (c : List (Str × β)) (key : Str) (v : β) :
    (mapSet c key v).length ≤ c.length + 1 := by
  induction c with
  | nil => simp [mapSet]
  | cons p rest ih =>
    by_cases h : p.1 = key
    · simp [mapSet, h]
    · simp only [mapSet, if_neg h, List.length_cons]
      omega

theorem mapSet_append_of_not_mem {β : Type} (key : Str) (v : β) :
    ∀ c : List (Str × β), key ∉ c.map Prod.fst → mapSet c key v = c ++ [(key, v)] := by
  intro c
  induction c with
  | nil => intro _; rfl
  | cons p rest ih =>
    intro hk
    simp only [List.map_cons, List.mem_cons] at hk
    push_neg at hk
    have hne : ¬p.1 = key := fun h => hk.1 h.symm
    simp only [mapSet, if_neg hne, List.cons_append, List.cons.injEq, true_and]
    exact ih hk.2

theorem mapGet_eq_none_of_not_mem {β : Type} (key : Str) :
    ∀ c : List (Str × β), key ∉ c.map Prod.fst → mapGet c key = none := by
  intro c
  induction c with
  | nil => intro _; rfl
  | cons p rest ih =>
    intro hk
    simp only [List.map_cons, List.mem_cons] at hk
    push_neg at hk
    have hne : (p.1 == key) = false := by
      simpa using fun h => hk.1 h.symm
    simp only [mapGet, List.find?_cons, hne, cond_false]
    exact ih hk.2

theorem mapDelete_cons_self {β : Type} (key : Str) (v : β) (rest : List (Str × β)) :
    mapDelete ((key, v) :: rest) key = rest := by
  simp [mapDelete, List.eraseP_cons]

theorem mapDelete_length_of_mem {β : Type} (key : Str) :
    ∀ c : List (Str × β), key ∈ c.map Prod.fst →
      (mapDelete c key).length = c.length - 1 := by
  intro c
  induction c with
  | nil => intro h; simp at h
  | cons p rest ih =>
    intro hk
    by_cases h : p.1 = key
    · have hbe : (p.1 == key) = true := by simpa using h
      simp only [mapDelete, List.eraseP_cons, hbe, cond_true, List.length_cons]
      omega
    · simp only [List.map_cons, List.mem_cons] at hk
      rcases hk with hk | hk
      · exact absurd hk.symm h
      · have hne : (p.1 == key) = false := by simpa using h
        simp only [mapDelete, List.eraseP_cons, hne, cond_false, List.length_cons]
        have hrec := ih hk
        simp only [mapDelete] at hrec
        have hpos : 0 < rest.length := List.length_pos.mpr (by
          intro hnil
          rw [hnil] at hk
          simp at hk)
        omega

theorem foldl_oldestStep_some :
    ∀ (l : FT.Cache) (p : Str × CacheEntry),
      ∃ r, l.foldl FT.oldestStep (some p) = some r ∧ (r = p ∨ r ∈ l) := by
  intro l
  induction l with
  | nil => intro p; exact ⟨p, rfl, Or.inl rfl⟩
  | cons q rest ih =>
    intro p
    simp only [List.foldl_cons]
    by_cases h : q.2.timestamp < p.2.timestamp
    · obtain ⟨r, hr, hmem⟩ := ih q
      refine ⟨r, ?_, ?_⟩
      · simpa [FT.oldestStep, h] using hr
      · rcases hmem with h1 | h1
        · exact Or.inr (by simp [h1])
        · exact Or.inr (by simp [h1])
    · obtain ⟨r, hr, hmem⟩ := ih p
      refine ⟨r, ?_, ?_⟩
      · simpa [FT.oldestStep, h] using hr
      · rcases hmem with h1 | h1
        · exact Or.inl h1
        · exact Or.inr (by simp [h1])

theorem foldl_oldestStep_const :
    ∀ (l : FT.Cache) (p : Str × CacheEntry),
      (∀ q ∈ l, ¬q.2.timestamp < p.2.timestamp) →
      l.foldl FT.oldestStep (some p) = some p := by
  intro l
  induction l with
  | nil => intro p _; rfl
  | cons q rest ih =>
    intro p hq
    simp only [List.foldl_cons, FT.oldestStep, if_neg (hq q (by simp))]
    exact ih p (fun r hr => hq r (by simp [hr]))

theorem findOldestEntry_mem (c : FT.Cache) (hne : c ≠ []) :
    ∃ k, FT.findOldestEntry c = some k ∧ k ∈ c.map Prod.fst := by
  cases c with
  | nil => exact absurd rfl hne
  | cons p rest =>
    obtain ⟨r, hr, hmem⟩ := foldl_oldestStep_some rest p
    refine ⟨r.1, ?_, ?_⟩
    · simp [FT.findOldestEntry, FT.oldestStep, hr]
    · rcases hmem with h1 | h1
      · subst h1
        exact List.mem_map_of_mem Prod.fst (List.mem_cons_self _ _)
      · simp only [List.map_cons, List.mem_cons]
        exact Or.inr (List.mem_map_of_mem Prod.fst h1)

theorem findOldestEntry_const_now (now : Nat) (p : Str × CacheEntry)
    (rest : FT.Cache) (hp : p.2.timestamp = now)
    (hrest : ∀ q ∈ rest, q.2.timestamp = now) :
    FT.findOldestEntry (p :: rest) = some p.1 := by
  have h := foldl_oldestStep_const rest p (fun q hq => by
    rw [hrest q hq, hp]
    omega)
  simp [FT.findOldestEntry, FT.oldestStep, h]

theorem cleanExpired_const_now (c : FT.Cache) (ttl now : Nat)
    (hc : ∀ p ∈ c, p.2.timestamp = now) :
    FT.cleanExpired c ttl now = c := by
  apply List.filter_eq_self.mpr
  intro p hp
  rw [hc p hp]
  simp

theorem FT_cacheSet_length (maxSize ttl now : Nat) (h : 0 < maxSize)
    (c : FT.Cache) (key value : Str) (hc : c.length ≤ maxSize) :
    (FT.cacheSet c maxSize ttl now key value).length ≤ maxSize := by
  have hclean_le : (FT.cleanExpired c ttl now).length ≤ c.length :=
    List.length_filter_le _ _
  by_cases hcap : maxSize ≤ (FT.cleanExpired c ttl now).length
  · have hne : FT.cleanExpired c ttl now ≠ [] := by
      intro h0
      rw [h0] at hcap
      simp at hcap
      omega
    obtain ⟨k, hk, hkmem⟩ := findOldestEntry_mem _ hne
    have hdel : (mapDelete (FT.cleanExpired c ttl now) k).length =
        (FT.cleanExpired c ttl now).length - 1 :=
      mapDelete_length_of_mem k _ hkmem
    have hle := mapSet_length_le (mapDelete (FT.cleanExpired c ttl now) k) key
      (⟨value, now⟩ : CacheEntry)
    simp only [FT.cacheSet, hk, if_pos hcap]
    omega
  · have hle := mapSet_length_le (FT.cleanExpired c ttl now) key
      (⟨value, now⟩ : CacheEntry)
    simp only [FT.cacheSet, if_neg hcap]
    omega

theorem TR_cacheSet_length (maxSize : Nat) (h : 0 < maxSize)
    (c : TR.Cache) (key value : Str) (hc : c.length ≤ maxSize) :
    (TR.cacheSet c maxSize key value).length ≤ maxSize := by
  by_cases hcap : maxSize ≤ c.length
  · cases c with
    | nil =>
      simp at hcap
      omega
    | cons p rest =>
      have hdel : mapDelete (p :: rest) p.1 = rest := mapDelete_cons_self p.1 p.2 rest
      simp only [TR.cacheSet, if_pos hcap, hdel]
      have hle := mapSet_length_le rest key value
      simp only [List.length_cons] at hc
      omega
  · simp only [TR.cacheSet, if_neg hcap]
    have hle := mapSet_length_le c key value
    omega

theorem FT_insertAll_fill (maxSize ttl now : Nat) :
    ∀ (kvs : List (Str × Str)) (c : FT.Cache),
      (∀ p ∈ c, p.2.timestamp = now) →
      (c.map Prod.fst ++ kvs.map Prod.fst).Nodup →
      c.length + kvs.length ≤ maxSize →
      FT.insertAll maxSize ttl now c kvs =
        c ++ kvs.map (fun q => (q.1, (⟨q.2, now⟩ : CacheEntry))) := by
  intro kvs
  induction kvs with
  | nil =>
    intro c _ _ _
    simp [FT.insertAll]
  | cons q rest ih =>
    intro c hts hnd hlen
    have hclean : FT.cleanExpired c ttl now = c := cleanExpired_const_now c ttl now hts
    have hlt : ¬maxSize ≤ c.length := by
      simp only [List.length_cons] at hlen
      omega
    have hkfresh : q.1 ∉ c.map Prod.fst := by
      simp only [List.map_cons] at hnd
      intro hmem
      rcases List.nodup_append.mp hnd with ⟨-, -, hdisj⟩
      exact hdisj hmem (by simp)
    have hset : FT.cacheSet c maxSize ttl now q.1 q.2 =
        c ++ [(q.1, (⟨q.2, now⟩ : CacheEntry))] := by
      simp only [FT.cacheSet, hclean, if_neg hlt]
      exact mapSet_append_of_not_mem q.1 _ c hkfresh
    rw [FT.insertAll, hset]
    rw [ih (c ++ [(q.1, (⟨q.2, now⟩ : CacheEntry))])]
    · simp
    · intro p hp
      rcases List.mem_append.mp hp with hp | hp
      · exact hts p hp
      · simp at hp
        rw [hp]
    · simp only [List.map_append, List.map_cons, List.map_nil] at hnd ⊢
      simp only [List.append_assoc, List.singleton_append]
      exact hnd
    · simp only [List.length_append, List.length_cons] at hlen ⊢
      simp only [List.length_nil]
      omega

theorem TR_insertAll_fill (maxSize : Nat) :
    ∀ (kvs : List (Str × Str)) (c : TR.Cache),
      (c.map Prod.fst ++ kvs.map Prod.fst).Nodup →
      c.length + kvs.length ≤ maxSize →
      TR.insertAll maxSize c kvs = c ++ kvs := by
  intro kvs
  induction kvs with
  | nil =>
    intro c _ _
    simp [TR.insertAll]
  | cons q rest ih =>
    intro c hnd hlen
    have hlt : ¬maxSize ≤ c.length := by
      simp only [List.length_cons] at hlen
      omega
    have hkfresh : q.1 ∉ c.map Prod.fst := by
      simp only [List.map_cons] at hnd
      intro hmem
      rcases List.nodup_append.mp hnd with ⟨-, -, hdisj⟩
      exact hdisj hmem (by simp)
    have hset : TR.cacheSet c maxSize q.1 q.2 = c ++ [(q.1, q.2)] := by
      simp only [TR.cacheSet, if_neg hlt]
      exact mapSet_append_of_not_mem q.1 q.2 c hkfresh
    rw [TR.insertAll, hset]
    rw [ih (c ++ [(q.1, q.2)])]
    · simp
    · simp only [List.map_append, List.map_cons, List.map_nil] at hnd ⊢
      simp only [List.append_assoc, List.singleton_append]
      exact hnd
    · simp only [List.length_append, List.length_cons] at hlen ⊢
      simp only [List.length_nil]
      omega

theorem FT_insertAll_append (maxSize ttl now : Nat) :
    ∀ (l1 l2 : List (Str × Str)) (c : FT.Cache),
      FT.insertAll maxSize ttl now c (l1 ++ l2) =
        FT.insertAll maxSize ttl now (FT.insertAll maxSize ttl now c l1) l2 := by
  intro l1
  induction l1 with
  | nil =>
    intro l2 c
    simp [FT.insertAll]
  | cons q rest ih =>
    intro l2 c
    simp only [List.cons_append, FT.insertAll]
    exact ih l2 _

theorem TR_insertAll_append (maxSize : Nat) :
    ∀ (l1 l2 : List (Str × Str)) (c : TR.Cache),
      TR.insertAll maxSize c (l1 ++ l2) =
        TR.insertAll maxSize (TR.insertAll maxSize c l1) l2 := by
  intro l1
  induction l1 with
  | nil =>
    intro l2 c
    simp [TR.insertAll]
  | cons q rest ih =>
    intro l2 c
    simp only [List.cons_append, TR.insertAll]
    exact ih l2 _

theorem FT_cacheSet_full (maxSize ttl now : Nat) (k0 : Str) (e0 : CacheEntry)
    (tail : FT.Cache) (key value : Str)
    (hts : ∀ p ∈ (k0, e0) :: tail, p.2.timestamp = now)
    (hcap : maxSize ≤ ((k0, e0) :: tail).length)
    (hfresh : key ∉ tail.map Prod.fst) :
    FT.cacheSet ((k0, e0) :: tail) maxSize ttl now key value =
      tail ++ [(key, (⟨value, now⟩ : CacheEntry))] := by
  have hclean := cleanExpired_const_now ((k0, e0) :: tail) ttl now hts
  have hold : FT.findOldestEntry ((k0, e0) :: tail) = some k0 :=
    findOldestEntry_const_now now (k0, e0) tail (hts _ (by simp))
      (fun q hq => hts q (by simp [hq]))
  simp only [FT.cacheSet, hclean, if_pos hcap, hold, mapDelete_cons_self]
  exact mapSet_append_of_not_mem key _ tail hfresh

theorem TR_cacheSet_full (maxSize : Nat) (k0 v0 : Str) (tail : TR.Cache)
    (key value : Str)
    (hcap : maxSize ≤ ((k0, v0) :: tail).length)
    (hfresh : key ∉ tail.map Prod.fst) :
    TR.cacheSet ((k0, v0) :: tail) maxSize key value = tail ++ [(key, value)] := by
  simp only [TR.cacheSet, if_pos hcap, mapDelete_cons_self]
  exact mapSet_append_of_not_mem key value tail hfresh

theorem FT_eviction_scenario (maxSize ttl now : Nat) (h : 0 < maxSize)
    (k0 v0 : Str) (rest : List (Str × Str))
    (hnd : (((k0, v0) :: rest).map Prod.fst).Nodup)
    (hlen : rest.length = maxSize) :
    (FT.insertAll maxSize ttl now [] ((k0, v0) :: rest)).length = maxSize ∧
      mapGet (FT.insertAll maxSize ttl now [] ((k0, v0) :: rest)) k0 = none := by
  rcases rest.eq_nil_or_concat with rfl | ⟨front, last, rfl⟩
  · simp at hlen
    omega
  · obtain ⟨lk, lv⟩ := last
    simp only [List.concat_eq_append] at hnd hlen ⊢
    have hlen' : front.length + 1 = maxSize := by simpa using hlen
    have hnd' : (k0 :: (front.map Prod.fst ++ [lk])).Nodup := by simpa using hnd
    have hk0 : k0 ∉ front.map Prod.fst ++ [lk] := (List.nodup_cons.mp hnd').1
    have hndrest : (front.map Prod.fst ++ [lk]).Nodup := (List.nodup_cons.mp hnd').2
    have hk0f : k0 ∉ front.map Prod.fst := fun hm => hk0 (List.mem_append.mpr (Or.inl hm))
    have hk0l : k0 ≠ lk := by
      intro hkl
      exact hk0 (List.mem_append.mpr (Or.inr (by simp [hkl])))
    have hlkf : lk ∉ front.map Prod.fst := by
      rcases List.nodup_append.mp hndrest with ⟨-, -, hdisj⟩
      intro hm
      exact hdisj hm (by simp)
    have hfill := FT_insertAll_fill maxSize ttl now ((k0, v0) :: front) []
      (by intro p hp; simp at hp)
      (by
        simp only [List.map_nil, List.nil_append, List.map_cons]
        exact List.nodup_cons.mpr ⟨hk0f, (List.nodup_append.mp hndrest).1⟩)
      (by simp only [List.length_nil, List.length_cons]; omega)
    have hassoc : ((k0, v0) :: (front ++ [(lk, lv)])) = ((k0, v0) :: front) ++ [(lk, lv)] := rfl
    rw [hassoc, FT_insertAll_append, hfill]
    simp only [List.nil_append, List.map_cons]
    rw [FT.insertAll, FT.insertAll]
    have hkeys : (front.map (fun q => (q.1, (⟨q.2, now⟩ : CacheEntry)))).map Prod.fst =
        front.map Prod.fst := by
      simp [List.map_map, Function.comp]
    have hset := FT_cacheSet_full maxSize ttl now k0 ⟨v0, now⟩
      (front.map (fun q => (q.1, (⟨q.2, now⟩ : CacheEntry)))) lk lv
      (by
        intro p hp
        rcases List.mem_cons.mp hp with hp | hp
        · rw [hp]
        · obtain ⟨q, -, rfl⟩ := List.mem_map.mp hp
          rfl)
      (by
        simp only [List.length_cons, List.length_map]
        omega)
      (by rw [hkeys]; exact hlkf)
    rw [hset]
    constructor
    · simp only [List.length_append, List.length_map, List.length_cons, List.length_nil]
      omega
    · apply mapGet_eq_none_of_not_mem
      simp only [List.map_append, hkeys, List.map_cons, List.map_nil]
      intro hm
      rcases List.mem_append.mp hm with hm | hm
      · exact hk0f hm
      · simp at hm
        exact hk0l hm

theorem TR_eviction_scenario (maxSize : Nat) (h : 0 < maxSize)
    (k0 v0 : Str) (rest : List (Str × Str))
    (hnd : (((k0, v0) :: rest).map Prod.fst).Nodup)
    (hlen : rest.length = maxSize) :
    (TR.insertAll maxSize [] ((k0, v0) :: rest)).length = maxSize ∧
      mapGet (TR.insertAll maxSize [] ((k0, v0) :: rest)) k0 = none := by
  rcases rest.eq_nil_or_concat with rfl | ⟨front, last, rfl⟩
  · simp at hlen
    omega
  · obtain ⟨lk, lv⟩ := last
    simp only [List.concat_eq_append] at hnd hlen ⊢
    have hlen' : front.length + 1 = maxSize := by simpa using hlen
    have hnd' : (k0 :: (front.map Prod.fst ++ [lk])).Nodup := by simpa using hnd
    have hk0 : k0 ∉ front.map Prod.fst ++ [lk] := (List.nodup_cons.mp hnd').1
    have hndrest : (front.map Prod.fst ++ [lk]).Nodup := (List.nodup_cons.mp hnd').2
    have hk0f : k0 ∉ front.map Prod.fst := fun hm => hk0 (List.mem_append.mpr (Or.inl hm))
    have hk0l : k0 ≠ lk := by
      intro hkl
      exact hk0 (List.mem_append.mpr (Or.inr (by simp [hkl])))
    have hlkf : lk ∉ front.map Prod.fst := by
      rcases List.nodup_append.mp hndrest with ⟨-, -, hdisj⟩
      intro hm
      exact hdisj hm (by simp)
    have hfill := TR_insertAll_fill maxSize ((k0, v0) :: front) []
      (by
        simp only [List.map_nil, List.nil_append, List.map_cons]
        exact List.nodup_cons.mpr ⟨hk0f, (List.nodup_append.mp hndrest).1⟩)
      (by simp only [List.length_nil, List.length_cons]; omega)
    have hassoc : ((k0, v0) :: (front ++ [(lk, lv)])) = ((k0, v0) :: front) ++ [(lk, lv)] := rfl
    rw [hassoc, TR_insertAll_append, hfill]
    simp only [List.nil_append]
    rw [TR.insertAll, TR.insertAll]
    have hset := TR_cacheSet_full maxSize k0 v0 front lk lv
      (by simp only [List.length_cons]; omega) hlkf
    rw [hset]
    constructor
    · simp only [List.length_append, List.length_cons, List.length_nil]
      omega
    · apply mapGet_eq_none_of_not_mem
      simp only [List.map_append, List.map_cons, List.map_nil]
      intro hm
      rcases List.mem_append.mp hm with hm | hm
      · exact hk0f hm
      · simp at hm
        exact hk0l hm

/-- **C6** (confirmed): for the (positive) configured capacity, the
cache never exceeds `maxSize` entries — `set` on a cache within the
bound stays within the bound, evicting one entry when at capacity (the
oldest by timestamp in the TTL cache of `freetranslation.ts`; the first
in insertion order in the `api/translations.ts` variant) — and
inserting `maxSize + 1` distinct keys into an empty cache leaves
exactly `maxSize` entries with the first-inserted key absent, in both
variants (all insertions at one instant `now`, so no entry expires). -/
theorem claim_C6_cache_bound_and_eviction (maxSize ttl now : Nat) (h : 0 < maxSize) :
    (∀ (c : FT.Cache) (key value : Str), c.length ≤ maxSize →
        (FT.cacheSet c maxSize ttl now key value).length ≤ maxSize)
    ∧ (∀ (c : TR.Cache) (key value : Str), c.length ≤ maxSize →
        (TR.cacheSet c maxSize key value).length ≤ maxSize)
    ∧ (∀ (k0 v0 : Str) (rest : List (Str × Str)),
        (((k0, v0) :: rest).map Prod.fst).Nodup → rest.length = maxSize →
        (FT.insertAll maxSize ttl now [] ((k0, v0) :: rest)).length = maxSize ∧
          mapGet (FT.insertAll maxSize ttl now [] ((k0, v0) :: rest)) k0 = none)
    ∧ (∀ (k0 v0 : Str) (rest : List (Str × Str)),
        (((k0, v0) :: rest).map Prod.fst).Nodup → rest.length = maxSize →
        (TR.insertAll maxSize [] ((k0, v0) :: rest)).length = maxSize ∧
          mapGet (TR.insertAll maxSize [] ((k0, v0) :: rest)) k0 = none) := by
  refine ⟨?_, ?_, ?_, ?_⟩
  · intro c key value hc
    exact FT_cacheSet_length maxSize ttl now h c key value hc
  · intro c key value hc
    exact TR_cacheSet_length maxSize h c key value hc
  · intro k0 v0 rest hnd hlen
    exact FT_eviction_scenario maxSize ttl now h k0 v0 rest hnd hlen
  · intro k0 v0 rest hnd hlen
    exact TR_eviction_scenario maxSize h k0 v0 rest hnd hlen

/-- Witness for C6 at capacity 2: a `set` on a full cache stays at 2
entries, and inserting three distinct keys leaves 2 entries with the
first key evicted, in both cache variants. -/
theorem claim_C6_cache_bound_and_eviction_witness :
    ((FT.cacheSet [("a".toList, ⟨"x".toList, 0⟩)] 2 10 0 "b".toList "y".toList).length ≤ 2)
    ∧ ((FT.insertAll 2 10 0 []
        [("a".toList, "1".toList), ("b".toList, "2".toList), ("c".toList, "3".toList)]).length = 2
      ∧ mapGet (FT.insertAll 2 10 0 []
          [("a".toList, "1".toList), ("b".toList, "2".toList), ("c".toList, "3".toList)])
          "a".toList = none)
    ∧ ((TR.insertAll 2 []
        [("a".toList, "1".toList), ("b".toList, "2".toList), ("c".toList, "3".toList)]).length = 2
      ∧ mapGet (TR.insertAll 2 []
          [("a".toList, "1".toList), ("b".toList, "2".toList), ("c".toList, "3".toList)])
          "a".toList = none) :=
  ⟨(claim_C6_cache_bound_and_eviction 2 10 0 (by omega)).1
      [("a".toList, ⟨"x".toList, 0⟩)] "b".toList "y".toList (by decide),
   (claim_C6_cache_bound_and_eviction 2 10 0 (by omega)).2.2.1
      "a".toList "1".toList [("b".toList, "2".toList), ("c".toList, "3".toList)]
      (by decide) (by decide),
   (claim_C6_cache_bound_and_eviction 2 10 0 (by omega)).2.2.2
      "a".toList "1".toList [("b".toList, "2".toList), ("c".toList, "3".toList)]
      (by decide) (by decide)⟩

theorem mapGet_mapSet_self {β : Type} (key : Str) (v : β) :
    ∀ c : List (Str × β), mapGet (mapSet c key v) key = some v := by
  intro c
  induction c with
  | nil => simp [mapGet, mapSet, List.find?]
  | cons p rest ih =>
    by_cases h : p.1 = key
    · simp [mapSet, h, mapGet, List.find?]
    · have hne : (p.1 == key) = false := by simpa using h
      simp only [mapSet, if_neg h, mapGet, List.find?_cons, hne, cond_false]
      exact ih

theorem FT_cacheSet_get_self (c : FT.Cache) (maxSize ttl now : Nat) (key value : Str) :
    mapGet (FT.cacheSet c maxSize ttl now key value) key =
      some (⟨value, now⟩ : CacheEntry) := by
  simp only [FT.cacheSet]
  exact mapGet_mapSet_self key _ _

/-- **C1** (corrected): for a text whose normalization is non-empty and
within `MAX_TEXT_LENGTH`, starting from a cache without the key, a
first `translate` call whose API response parses to a translation `tr`
issues exactly one `callTranslationAPI` invocation and stores `tr` in
the cache under `(sourceLang, targetLang, normalizeText t)`; provided
the stored translation `tr` is non-empty, the second identical call
(at the same instant) returns the cached value with zero
`callTranslationAPI` invocations.  (The non-emptiness proviso is forced
by the code: `if (cached) return cached` treats a cached empty string
as a miss — see the counterexample.) -/
theorem claim_C1_translate_caches (apiCall : Str → Except JsError JVal)
    (maxSize ttl maxTextLength now : Nat) (targetLang sourceLang t : Str)
    (c0 : FT.Cache) (resp : JVal) (tr : Str)
    (hne : normalizeText t ≠ [])
    (hshort : (normalizeText t).length ≤ maxTextLength)
    (huncached : mapGet c0 (generateCacheKey sourceLang targetLang (normalizeText t)) = none)
    (hcall : apiCall (normalizeText t) = Except.ok resp)
    (hparse : FT.extractTranslation resp = Except.ok tr)
    (htr : tr ≠ []) :
    FT.translate apiCall maxSize ttl maxTextLength now targetLang sourceLang t c0 =
      (Except.ok tr,
       FT.cacheSet c0 maxSize ttl now
         (generateCacheKey sourceLang targetLang (normalizeText t)) tr, 1)
    ∧ mapGet (FT.cacheSet c0 maxSize ttl now
          (generateCacheKey sourceLang targetLang (normalizeText t)) tr)
        (generateCacheKey sourceLang targetLang (normalizeText t)) =
        some (⟨tr, now⟩ : CacheEntry)
    ∧ FT.translate apiCall maxSize ttl maxTextLength now targetLang sourceLang t
        (FT.cacheSet c0 maxSize ttl now
          (generateCacheKey sourceLang targetLang (normalizeText t)) tr) =
      (Except.ok tr,
       FT.cacheSet c0 maxSize ttl now
         (generateCacheKey sourceLang targetLang (normalizeText t)) tr, 0) := by
  have hie : (normalizeText t).isEmpty = false := by
    cases hcl : normalizeText t with
    | nil => exact absurd hcl hne
    | cons a l => rfl
  have htre : tr.isEmpty = false := by
    cases hcl : tr with
    | nil => exact absurd hcl htr
    | cons a l => rfl
  have hnotlong : ¬maxTextLength < (normalizeText t).length := by omega
  refine ⟨?_, FT_cacheSet_get_self _ _ _ _ _ _, ?_⟩
  · simp only [FT.translate, hie, Bool.false_eq_true, if_false, FT.cacheGet, huncached,
      if_neg hnotlong, hcall, FT.processTranslationResponse, hparse]
  · have hget : mapGet (FT.cacheSet c0 maxSize ttl now
        (generateCacheKey sourceLang targetLang (normalizeText t)) tr)
        (generateCacheKey sourceLang targetLang (normalizeText t)) =
        some (⟨tr, now⟩ : CacheEntry) := FT_cacheSet_get_self _ _ _ _ _ _
    have hfresh : ¬ttl < now - now := by omega
    simp only [FT.translate, hie, Bool.false_eq_true, if_false, FT.cacheGet, hget,
      if_neg hfresh, htre]

/-- **C1 counterexample**: when the upstream response parses to the
empty translation, the first call succeeds (returns `""`) and caches
`""`, but the truthiness test `if (cached) return cached` treats the
cached empty string as a miss, so the second identical call issues a
second `callTranslationAPI` invocation instead of zero — the claim's
"exactly one upstream call" fails. -/
theorem claim_C1_counterexample :
    (FT.translate
        (fun _ => Except.ok (JVal.jarr [JVal.jarr [JVal.jarr [JVal.jstr []]]]))
        2000 86400000 5000 0 "en".toList "es".toList "hola".toList []).1 =
      Except.ok []
    ∧ (FT.translate
        (fun _ => Except.ok (JVal.jarr [JVal.jarr [JVal.jarr [JVal.jstr []]]]))
        2000 86400000 5000 0 "en".toList "es".toList "hola".toList
        (FT.translate
          (fun _ => Except.ok (JVal.jarr [JVal.jarr [JVal.jarr [JVal.jstr []]]]))
          2000 86400000 5000 0 "en".toList "es".toList "hola".toList []).2.1).2.2 = 1 := by
  constructor
  · rfl
  · rfl

/-- Witness for C1: a concrete first call caches `"Hello"` and the
second call is served from the cache with zero upstream calls. -/
theorem claim_C1_translate_caches_witness :
    FT.translate (fun _ => Except.ok (JVal.jarr [JVal.jarr [JVal.jarr [JVal.jstr "Hello".toList]]]))
        2000 86400000 5000 0 "en".toList "es".toList "hola".toList
        (FT.cacheSet [] 2000 86400000 0
          (generateCacheKey "es".toList "en".toList (normalizeText "hola".toList))
          "Hello".toList) =
      (Except.ok "Hello".toList,
       FT.cacheSet [] 2000 86400000 0
         (generateCacheKey "es".toList "en".toList (normalizeText "hola".toList))
         "Hello".toList, 0) :=
  (claim_C1_translate_caches
    (fun _ => Except.ok (JVal.jarr [JVal.jarr [JVal.jarr [JVal.jstr "Hello".toList]]]))
    2000 86400000 5000 0 "en".toList "es".toList "hola".toList []
    (JVal.jarr [JVal.jarr [JVal.jarr [JVal.jstr "Hello".toList]]]) "Hello".toList
    (by decide) (by decide) (by decide) rfl rfl (by decide)).2.2

theorem TR_partition_all_short (maxChunkLength : Nat) (sl tl : Str) (c : TR.Cache) :
    ∀ (texts : List Str) (i : Nat),
      (∀ t ∈ texts, normalizeText t ≠ [] ∧ (normalizeText t).length ≤ maxChunkLength ∧
        TR.cacheGet c (generateCacheKey sl tl (normalizeText t)) = none) →
      TR.partitionPass maxChunkLength sl tl c texts i =
        (texts.map (fun _ => none), texts.map normalizeText,
         List.range' i texts.length, []) := by
  intro texts
  induction texts with
  | nil =>
    intro i _
    rfl
  | cons t rest ih =>
    intro i hall
    obtain ⟨hne, hshort, hmiss⟩ := hall t (by simp)
    have hie : (normalizeText t).isEmpty = false := by
      cases hcl : normalizeText t with
      | nil => exact absurd hcl hne
      | cons a l => rfl
    have hrest := ih (i + 1) (fun u hu => hall u (by simp [hu]))
    simp only [TR.partitionPass, hrest, hie, Bool.false_eq_true, if_false,
      if_neg (by omega : ¬maxChunkLength < (normalizeText t).length), hmiss,
      List.map_cons, List.length_cons, List.range'_succ]

theorem TR_writeBack_full :
    ∀ (m i : Nat) (pref nones : List (Option Str)) (vals : List Str),
      pref.length = i → nones.length = m → vals.length = m →
      TR.writeBack (pref ++ nones) (List.range' i m) vals = pref ++ vals.map some := by
  intro m
  induction m with
  | zero =>
    intro i pref nones vals hp hn hv
    obtain rfl : nones = [] := List.length_eq_zero.mp hn
    obtain rfl : vals = [] := List.length_eq_zero.mp hv
    simp [TR.writeBack]
  | succ m ih =>
    intro i pref nones vals hp hn hv
    obtain ⟨n0, nrest, rfl⟩ : ∃ a l, nones = a :: l := by
      cases nones with
      | nil => simp at hn
      | cons a l => exact ⟨a, l, rfl⟩
    obtain ⟨v, vrest, rfl⟩ : ∃ a l, vals = a :: l := by
      cases vals with
      | nil => simp at hv
      | cons a l => exact ⟨a, l, rfl⟩
    rw [List.range'_succ]
    simp only [TR.writeBack]
    have hset : (pref ++ n0 :: nrest).set i (some v) = pref ++ some v :: nrest := by
      rw [List.set_append_right _ _ (by omega)]
      have h0 : i - pref.length = 0 := by omega
      rw [h0]
      rfl
    rw [hset]
    have hrec := ih (i + 1) (pref ++ [some v]) nrest vrest
      (by simp [hp]) (by simpa using hn) (by simpa using hv)
    calc TR.writeBack (pref ++ some v :: nrest) (List.range' (i + 1) m) vrest
        = TR.writeBack ((pref ++ [some v]) ++ nrest) (List.range' (i + 1) m) vrest := by
          simp
      _ = (pref ++ [some v]) ++ vrest.map some := hrec
      _ = pref ++ (v :: vrest).map some := by simp

/-- **C8** (corrected, for the `api/translations.ts` variant):
`translateMultiple` on non-empty texts that are all non-empty after
normalization, all within `MAX_CHUNK_LENGTH`, and all uncached issues
exactly one combined upstream call carrying all the normalized texts as
a list, and returns the upstream's ordered results (element `i` is the
translation of `texts[i]`), caching each pair.  (The
`freetranslation.ts` variant has no batch path — see the
counterexample.) -/
theorem claim_C8_translateMultiple_batch
    (oracle : List Str → Except JsError (List Str))
    (maxChunkLength maxSize fuel : Nat) (texts : List Str) (tl sl : Str)
    (c : TR.Cache) (rs : List Str)
    (hne : texts ≠ [])
    (hall : ∀ t ∈ texts, normalizeText t ≠ [] ∧
      (normalizeText t).length ≤ maxChunkLength ∧
      TR.cacheGet c (generateCacheKey sl tl (normalizeText t)) = none)
    (horacle : oracle (texts.map normalizeText) = Except.ok rs)
    (hlen : rs.length = texts.length) :
    TR.translateMultiple oracle maxChunkLength maxSize (fuel + 1) texts tl sl c =
      (Except.ok rs, TR.cacheStoreBatch maxSize sl tl c (texts.map normalizeText) rs, 1) := by
  have hie : texts.isEmpty = false := by
    cases texts with
    | nil => exact absurd rfl hne
    | cons a l => rfl
  have hpart := TR_partition_all_short maxChunkLength sl tl c texts 0 hall
  have hbne : (texts.map normalizeText).isEmpty = false := by
    cases texts with
    | nil => exact absurd rfl hne
    | cons a l => rfl
  have hwb := TR_writeBack_full texts.length 0 [] (texts.map (fun _ => none)) rs
    rfl (by simp) hlen
  rw [TR.translateMultiple]
  simp only [hie, Bool.false_eq_true, if_false, hpart, hbne, horacle,
    if_neg (by simp [hlen] : ¬rs.length ≠ (texts.map normalizeText).length)]
  simp only [List.nil_append] at hwb
  rw [hwb]
  simp only [TR.longLoop]
  simp only [List.map_map]
  have : ((fun o : Option Str => o.getD []) ∘ some) = id := by
    funext o
    rfl
  simp [this]

/-- **C8 counterexample**: the `freetranslation.ts` `translateMultiple`
has no batching — it maps `translate` over the texts — so two short,
uncached, distinct texts issue two `callTranslationAPI` invocations,
not the single combined call the claim states. -/
theorem claim_C8_counterexample :
    (FT.translateMultiple
        (fun _ => Except.ok (JVal.jarr [JVal.jarr [JVal.jarr [JVal.jstr "X".toList]]]))
        2000 86400000 5000 0 "en".toList "es".toList
        ["Hola".toList, "Adios".toList] []).2.2 = 2 := by
  rfl

/-- Witness for C8: two short uncached texts produce one batched call
returning both translations in order. -/
theorem claim_C8_translateMultiple_batch_witness :
    TR.translateMultiple (fun _ => Except.ok ["H".toList, "A".toList]) 500 1000 3
        ["Hola".toList, "Adios".toList] "en".toList "es".toList [] =
      (Except.ok ["H".toList, "A".toList],
       TR.cacheStoreBatch 1000 "es".toList "en".toList []
         (["Hola".toList, "Adios".toList].map normalizeText)
         ["H".toList, "A".toList], 1) :=
  claim_C8_translateMultiple_batch (fun _ => Except.ok ["H".toList, "A".toList])
    500 1000 2 ["Hola".toList, "Adios".toList] "en".toList "es".toList []
    ["H".toList, "A".toList]
    (by decide)
    (by decide)
    rfl
    rfl

theorem nonWs_dropWhile (l : Str) : nonWs (l.dropWhile isWs) = nonWs l := by
  induction l with
  | nil => rfl
  | cons c rest ih =>
    by_cases h : isWs c = true
    · rw [List.dropWhile_cons_of_pos h, ih]
      simp [nonWs, h]
    · rw [List.dropWhile_cons_of_neg h]

theorem nonWs_reverse (l : Str) : nonWs l.reverse = (nonWs l).reverse := by
  simp [nonWs, List.filter_reverse]

theorem nonWs_trimEnd (l : Str) : nonWs (trimEnd l) = nonWs l := by
  unfold trimEnd
  rw [nonWs_reverse, nonWs_dropWhile, nonWs_reverse, List.reverse_reverse]

theorem nonWs_trim (l : Str) : nonWs (trim l) = nonWs l := by
  unfold trim
  rw [nonWs_dropWhile, nonWs_trimEnd]

theorem trimEnd_length_le (l : Str) : (trimEnd l).length ≤ l.length := by
  unfold trimEnd
  calc (l.reverse.dropWhile isWs).reverse.length
      = (l.reverse.dropWhile isWs).length := List.length_reverse _
    _ ≤ l.reverse.length := List.Sublist.length_le (List.dropWhile_sublist isWs)
    _ = l.length := List.length_reverse _

theorem trim_length_le (l : Str) : (trim l).length ≤ l.length := by
  unfold trim
  calc ((trimEnd l).dropWhile isWs).length
      ≤ (trimEnd l).length := List.Sublist.length_le (List.dropWhile_sublist isWs)
    _ ≤ l.length := trimEnd_length_le l

theorem trim_append_ws (l : Str) (c : Char) (h : isWs c = true) :
    trim (l ++ [c]) = trim l := by
  unfold trim trimEnd
  rw [List.reverse_append]
  simp only [List.reverse_cons, List.reverse_nil, List.nil_append, List.singleton_append]
  rw [List.dropWhile_cons_of_pos h]

theorem mem_trim (a : Char) (l : Str) (h : a ∈ trim l) : a ∈ l := by
  unfold trim trimEnd at h
  have h1 := List.Sublist.subset (List.dropWhile_sublist isWs) h
  rw [List.mem_reverse] at h1
  have h2 := List.Sublist.subset (List.dropWhile_sublist isWs) h1
  rw [List.mem_reverse] at h2
  exact h2

theorem splitOnChar_cons_self (sep : Char) (rest : Str) :
    splitOnChar sep (sep :: rest) = [] :: splitOnChar sep rest := by
  rw [splitOnChar, if_pos rfl]

theorem splitOnChar_cons_ne (sep c : Char) (rest : Str) (h : ¬c = sep) :
    splitOnChar sep (c :: rest) = consHead c (splitOnChar sep rest) := by
  rw [splitOnChar, if_neg h]

theorem splitOnChar_ne_nil (sep : Char) (l : Str) : splitOnChar sep l ≠ [] := by
  cases l with
  | nil => simp [splitOnChar]
  | cons c rest =>
    by_cases h : c = sep
    · subst h
      rw [splitOnChar_cons_self]
      simp
    · rw [splitOnChar_cons_ne sep c rest h]
      cases hs : splitOnChar sep rest with
      | nil => simp [consHead]
      | cons a t => simp [consHead]

theorem nonWs_cons (c : Char) (l : Str) : nonWs (c :: l) = nonWs [c] ++ nonWs l := by
  simp only [nonWs, List.filter_cons, List.filter_nil]
  by_cases hx : isWs c = true <;> simp [hx]

theorem nonWs_flatten_consHead (x : Char) (S : List Str) :
    ((consHead x S).map nonWs).flatten = nonWs [x] ++ (S.map nonWs).flatten := by
  cases S with
  | nil => simp [consHead, nonWs]
  | cons h t =>
    simp only [consHead, List.map_cons, List.flatten_cons]
    rw [nonWs_cons, List.append_assoc]

theorem nonWs_flatten_splitOnChar (sep : Char) (hsep : isWs sep = true) (l : Str) :
    ((splitOnChar sep l).map nonWs).flatten = nonWs l := by
  induction l with
  | nil => simp [splitOnChar, nonWs]
  | cons c rest ih =>
    by_cases h : c = sep
    · subst h
      rw [splitOnChar_cons_self]
      simp only [List.map_cons, List.flatten_cons]
      rw [ih]
      simp [nonWs, List.filter_cons, hsep]
    · rw [splitOnChar_cons_ne sep c rest h, nonWs_flatten_consHead, ih, ← nonWs_cons]

theorem not_mem_of_mem_splitOnChar (sep : Char) :
    ∀ (l : Str) (p : Str), p ∈ splitOnChar sep l → sep ∉ p := by
  intro l
  induction l with
  | nil =>
    intro p hp
    simp [splitOnChar] at hp
    simp [hp]
  | cons c rest ih =>
    intro p hp
    by_cases h : c = sep
    · subst h
      rw [splitOnChar_cons_self] at hp
      rcases List.mem_cons.mp hp with rfl | hp
      · simp
      · exact ih p hp
    · rw [splitOnChar_cons_ne sep c rest h] at hp
      cases hs : splitOnChar sep rest with
      | nil => exact absurd hs (splitOnChar_ne_nil sep rest)
      | cons a t =>
        rw [hs] at hp
        simp only [consHead, List.mem_cons] at hp
        rcases hp with rfl | hp
        · intro hm
          rcases List.mem_cons.mp hm with rfl | hm
          · exact h rfl
          · exact ih a (by rw [hs]; simp) hm
        · exact ih p (by rw [hs]; simp [hp])

theorem isWs_of_isDelim {c : Char} (h : isDelim c = true) : isWs c = false := by
  unfold isDelim at h
  simp only [Bool.or_eq_true, beq_iff_eq] at h
  rcases h with (h1 | h1) | h1 <;> subst h1 <;> rfl

theorem nonWs_markGo (l : Str) : ∀ b, nonWs (markGo b l) = nonWs l := by
  induction l with
  | nil => intro b; rfl
  | cons c rest ih =>
    intro b
    simp only [markGo]
    by_cases h1 : (b && isWs c) = true
    · rw [if_pos h1, ih]
      have hc : isWs c = true := by
        cases b <;> simp_all
      simp [nonWs, List.filter_cons, hc]
    · rw [if_neg h1]
      by_cases h2 : (isDelim c && headIsWs rest) = true
      · rw [if_pos h2]
        have hd : isDelim c = true := by
          cases hdel : isDelim c
          · simp [hdel] at h2
          · rfl
        have hc : isWs c = false := isWs_of_isDelim hd
        rw [nonWs_cons c ('\n' :: markGo true rest), nonWs_cons '\n' (markGo true rest),
          ih true, nonWs_cons c rest]
        simp [nonWs, show isWs '\n' = true from by decide]
      · rw [if_neg h2]
        rw [nonWs_cons c (markGo false rest), ih false, nonWs_cons c rest]

theorem nonWs_joinSp (L : List Str) : nonWs (joinSp L) = (L.map nonWs).flatten := by
  induction L with
  | nil => rfl
  | cons s rest ih =>
    cases rest with
    | nil => simp [joinSp, nonWs]
    | cons b t =>
      rw [show joinSp (s :: b :: t) = s ++ ' ' :: joinSp (b :: t) from rfl]
      simp only [List.map_cons, List.flatten_cons] at ih ⊢
      simp [nonWs, List.filter_append, List.filter_cons,
        show isWs ' ' = true from by decide]
      exact ih

theorem nonWs_append_ws_right (l : Str) (c : Char) (h : isWs c = true) :
    nonWs (l ++ [c]) = nonWs l := by
  simp [nonWs, List.filter_append, h]

theorem nonWs_append (l1 l2 : Str) : nonWs (l1 ++ l2) = nonWs l1 ++ nonWs l2 := by
  simp [nonWs, List.filter_append]

theorem wordLoop_content (maxLength : Nat) :
    ∀ (ws chunks : List Str) (cc : Str),
      ((wordLoop maxLength chunks cc ws).1.map nonWs).flatten ++
          nonWs (wordLoop maxLength chunks cc ws).2 =
        (chunks.map nonWs).flatten ++ nonWs cc ++ (ws.map nonWs).flatten := by
  intro ws
  induction ws with
  | nil =>
    intro chunks cc
    simp [wordLoop]
  | cons w ws' ih =>
    intro chunks cc
    simp only [wordLoop]
    by_cases h : cc.length + w.length + 1 ≤ maxLength
    · rw [if_pos h, ih]
      rw [List.append_assoc cc w [' '], nonWs_append, nonWs_append_ws_right w ' ' (by decide)]
      simp [List.append_assoc]
    · rw [if_neg h, ih]
      have hflush : ((if cc.isEmpty then chunks else chunks ++ [trim cc]).map nonWs).flatten =
          (chunks.map nonWs).flatten ++ nonWs cc := by
        by_cases hcc : cc.isEmpty
        · have hnil : cc = [] := by
            cases cc with
            | nil => rfl
            | cons a l => simp at hcc
          rw [if_pos hcc, hnil]
          simp [nonWs]
        · rw [if_neg hcc]
          simp [List.map_append, nonWs_trim]
      rw [hflush, nonWs_append_ws_right w ' ' (by decide)]
      simp [List.append_assoc]

theorem sentLoop_content (maxLength : Nat) :
    ∀ (ss chunks : List Str) (cc : Str),
      ((sentLoop maxLength chunks cc ss).1.map nonWs).flatten ++
          nonWs (sentLoop maxLength chunks cc ss).2 =
        (chunks.map nonWs).flatten ++ nonWs cc ++ (ss.map nonWs).flatten := by
  intro ss
  induction ss with
  | nil =>
    intro chunks cc
    simp [sentLoop]
  | cons s ss' ih =>
    intro chunks cc
    simp only [sentLoop]
    have hflush : ((if cc.isEmpty then chunks else chunks ++ [trim cc]).map nonWs).flatten =
        (chunks.map nonWs).flatten ++ nonWs cc := by
      by_cases hcc : cc.isEmpty
      · have hnil : cc = [] := by
          cases cc with
          | nil => rfl
          | cons a l => simp at hcc
        rw [if_pos hcc, hnil]
        simp [nonWs]
      · rw [if_neg hcc]
        simp [List.map_append, nonWs_trim]
    by_cases h : cc.length + s.length ≤ maxLength
    · rw [if_pos h, ih]
      rw [List.append_assoc cc s [' '], nonWs_append, nonWs_append_ws_right s ' ' (by decide)]
      simp [List.append_assoc]
    · rw [if_neg h]
      by_cases hlong : s.length > maxLength
      · rw [if_pos hlong]
        rw [ih, wordLoop_content]
        rw [hflush, nonWs_flatten_splitOnChar ' ' (by decide) s]
        simp [nonWs, List.append_assoc]
      · rw [if_neg hlong, ih, hflush, nonWs_append_ws_right s ' ' (by decide)]
        simp [List.append_assoc]

theorem splitText_content (text : Str) (maxLength : Nat) :
    nonWs (joinSp (splitText text maxLength)) = nonWs text := by
  unfold splitText
  by_cases h : text.length ≤ maxLength
  · rw [if_pos h]
    rfl
  · rw [if_neg h]
    rw [nonWs_joinSp]
    have hsent : ((splitOnChar '\n' (markSentences text)).map nonWs).flatten =
        nonWs text := by
      rw [nonWs_flatten_splitOnChar '\n' (by decide)]
      exact nonWs_markGo text false
    have hcontent := sentLoop_content maxLength
      (splitOnChar '\n' (markSentences text)) [] []
    rw [List.map_nil, List.flatten_nil, List.nil_append,
      show nonWs ([] : Str) = [] from rfl, List.nil_append, hsent] at hcontent
    by_cases hcc : (sentLoop maxLength [] []
        (splitOnChar '\n' (markSentences text))).2.isEmpty
    · rw [if_pos hcc]
      have hnil : (sentLoop maxLength [] []
          (splitOnChar '\n' (markSentences text))).2 = [] := by
        cases hval : (sentLoop maxLength [] []
            (splitOnChar '\n' (markSentences text))).2 with
        | nil => rfl
        | cons a l =>
          rw [hval] at hcc
          simp at hcc
      rw [hnil, show nonWs ([] : Str) = [] from rfl, List.append_nil] at hcontent
      exact hcontent
    · rw [if_neg hcc]
      simp only [List.map_append, List.map_cons, List.map_nil, List.flatten_append,
        List.flatten_cons, List.flatten_nil, List.append_nil]
      rw [nonWs_trim]
      exact hcontent

theorem wordLoop_bound (maxLength : Nat) :
    ∀ (ws chunks : List Str) (cc : Str),
      (∀ ch ∈ chunks, ch.length ≤ maxLength ∨ ' ' ∉ ch) →
      ((trim cc).length ≤ maxLength ∨ ' ' ∉ trim cc) →
      (∀ w ∈ ws, ' ' ∉ w) →
      (∀ ch ∈ (wordLoop maxLength chunks cc ws).1, ch.length ≤ maxLength ∨ ' ' ∉ ch) ∧
        ((trim (wordLoop maxLength chunks cc ws).2).length ≤ maxLength ∨
          ' ' ∉ trim (wordLoop maxLength chunks cc ws).2) := by
  intro ws
  induction ws with
  | nil =>
    intro chunks cc hP hQ _
    exact ⟨hP, hQ⟩
  | cons w ws' ih =>
    intro chunks cc hP hQ hws
    simp only [wordLoop]
    by_cases h : cc.length + w.length + 1 ≤ maxLength
    · rw [if_pos h]
      apply ih
      · exact hP
      · left
        rw [List.append_assoc cc w [' '], show w ++ [' '] = w ++ [' '] from rfl,
          ← List.append_assoc cc w [' '], trim_append_ws (cc ++ w) ' ' (by decide)]
        calc (trim (cc ++ w)).length ≤ (cc ++ w).length := trim_length_le _
          _ = cc.length + w.length := List.length_append _ _
          _ ≤ maxLength := by omega
      · exact fun u hu => hws u (by simp [hu])
    · rw [if_neg h]
      apply ih
      · intro ch hch
        by_cases hcc : cc.isEmpty
        · rw [if_pos hcc] at hch
          exact hP ch hch
        · rw [if_neg hcc] at hch
          rcases List.mem_append.mp hch with hch | hch
          · exact hP ch hch
          · simp only [List.mem_singleton] at hch
            rw [hch]
            exact hQ
      · right
        rw [trim_append_ws w ' ' (by decide)]
        intro hm
        exact hws w (by simp) (mem_trim ' ' w hm)
      · exact fun u hu => hws u (by simp [hu])

theorem sentLoop_bound (maxLength : Nat) :
    ∀ (ss chunks : List Str) (cc : Str),
      (∀ ch ∈ chunks, ch.length ≤ maxLength ∨ ' ' ∉ ch) →
      ((trim cc).length ≤ maxLength ∨ ' ' ∉ trim cc) →
      (∀ ch ∈ (sentLoop maxLength chunks cc ss).1, ch.length ≤ maxLength ∨ ' ' ∉ ch) ∧
        ((trim (sentLoop maxLength chunks cc ss).2).length ≤ maxLength ∨
          ' ' ∉ trim (sentLoop maxLength chunks cc ss).2) := by
  intro ss
  induction ss with
  | nil =>
    intro chunks cc hP hQ
    exact ⟨hP, hQ⟩
  | cons s ss' ih =>
    intro chunks cc hP hQ
    simp only [sentLoop]
    have hP1 : ∀ ch ∈ (if cc.isEmpty then chunks else chunks ++ [trim cc]),
        ch.length ≤ maxLength ∨ ' ' ∉ ch := by
      intro ch hch
      by_cases hcc : cc.isEmpty
      · rw [if_pos hcc] at hch
        exact hP ch hch
      · rw [if_neg hcc] at hch
        rcases List.mem_append.mp hch with hch | hch
        · exact hP ch hch
        · simp only [List.mem_singleton] at hch
          rw [hch]
          exact hQ
    by_cases h : cc.length + s.length ≤ maxLength
    · rw [if_pos h]
      apply ih
      · exact hP
      · left
        rw [trim_append_ws (cc ++ s) ' ' (by decide)]
        calc (trim (cc ++ s)).length ≤ (cc ++ s).length := trim_length_le _
          _ = cc.length + s.length := List.length_append _ _
          _ ≤ maxLength := h
    · rw [if_neg h]
      by_cases hlong : s.length > maxLength
      · rw [if_pos hlong]
        have hw := wordLoop_bound maxLength (splitOnChar ' ' s)
          (if cc.isEmpty then chunks else chunks ++ [trim cc]) [] hP1
          (by left; simp [trim, trimEnd])
          (fun w hw => not_mem_of_mem_splitOnChar ' ' s w hw)
        exact ih _ _ hw.1 hw.2
      · rw [if_neg hlong]
        apply ih
        · exact hP1
        · left
          rw [trim_append_ws s ' ' (by decide)]
          calc (trim s).length ≤ s.length := trim_length_le _
            _ ≤ maxLength := by omega

theorem lastSpaceLE_le (l : Str) (i j : Nat) (h : lastSpaceLE l i = some j) : j ≤ i := by
  unfold lastSpaceLE at h
  have hmem := List.mem_of_mem_getLast? h
  rw [List.mem_filter] at hmem
  have := hmem.2
  simp only [Bool.and_eq_true, decide_eq_true_eq] at this
  exact this.1

theorem sticLoop_bound (text : Str) (maxChunkLength : Nat) :
    ∀ (fuel ci : Nat), ∀ ch ∈ sticLoop text maxChunkLength fuel ci,
      ch.length ≤ maxChunkLength := by
  intro fuel
  induction fuel with
  | zero =>
    intro ci ch hch
    simp [sticLoop] at hch
  | succ fuel ih =>
    intro ci ch hch
    simp only [sticLoop] at hch
    by_cases h1 : ci < text.length
    · rw [if_pos h1] at hch
      by_cases h2 : ci + maxChunkLength ≥ text.length
      · rw [if_pos h2] at hch
        simp only [List.mem_singleton] at hch
        rw [hch]
        unfold extract
        calc ((text.drop ci).take (text.length - ci)).length
            ≤ text.length - ci := List.length_take_le _ _
          _ ≤ maxChunkLength := by omega
      · rw [if_neg h2] at hch
        rcases List.mem_cons.mp hch with hch | hch
        · rw [hch]
          unfold extract
          have hle : (match lastSpaceLE text (ci + maxChunkLength) with
              | none => ci + maxChunkLength
              | some j => if j ≤ ci then ci + maxChunkLength else j) ≤
              ci + maxChunkLength := by
            cases hls : lastSpaceLE text (ci + maxChunkLength) with
            | none => exact le_refl _
            | some j =>
              dsimp only
              by_cases hj : j ≤ ci
              · rw [if_pos hj]
              · rw [if_neg hj]
                exact lastSpaceLE_le text (ci + maxChunkLength) j hls
          calc ((text.drop ci).take _).length
              ≤ _ - ci := List.length_take_le _ _
            _ ≤ (ci + maxChunkLength) - ci := by omega
            _ = maxChunkLength := by omega
        · exact ih _ ch hch
    · rw [if_neg h1] at hch
      simp at hch

/-- **C2** (corrected): `splitTextIntoChunks` (the `api/translations.ts`
chunker) never emits a chunk longer than `maxChunkLength` — it has the
hard-cut fallback.  `splitText` (the `freetranslation.ts` chunker) has
no hard cut: every chunk is either within `maxLength` or contains no
space at all, i.e. it is a single unbreakable word emitted whole, which
can exceed `maxLength` (see the counterexample). -/
theorem claim_C2_chunk_bounds (text : Str) (maxLength : Nat) :
    (∀ ch ∈ splitTextIntoChunks text maxLength, ch.length ≤ maxLength)
    ∧ (∀ ch ∈ splitText text maxLength, ch.length ≤ maxLength ∨ ' ' ∉ ch) := by
  constructor
  · exact fun ch hch => sticLoop_bound text maxLength _ 0 ch hch
  · intro ch hch
    unfold splitText at hch
    by_cases h : text.length ≤ maxLength
    · rw [if_pos h] at hch
      simp only [List.mem_singleton] at hch
      rw [hch]
      left
      exact h
    · rw [if_neg h] at hch
      have hs := sentLoop_bound maxLength (splitOnChar '\n' (markSentences text)) [] []
        (by intro c hc; simp at hc)
        (by left; simp [trim, trimEnd])
      by_cases hcc : (sentLoop maxLength [] []
          (splitOnChar '\n' (markSentences text))).2.isEmpty
      · rw [if_pos hcc] at hch
        exact hs.1 ch hch
      · rw [if_neg hcc] at hch
        rcases List.mem_append.mp hch with hch | hch
        · exact hs.1 ch hch
        · simp only [List.mem_singleton] at hch
          rw [hch]
          exact hs.2

/-- **C2 counterexample**: `splitText` has no hard cut — a single
10-character word with `maxLength = 5` is emitted whole as one chunk of
length 10 > 5, so "every chunk has length at most maxLength" is false
for `splitText`. -/
theorem claim_C2_counterexample :
    splitText "aaaaaaaaaa".toList 5 = ["aaaaaaaaaa".toList]
    ∧ 5 < "aaaaaaaaaa".toList.length := by
  constructor
  · decide
  · decide

/-- Witness for C2 on `"ab cd"` with limit 3: `splitTextIntoChunks`
yields `[ "ab", " cd" ]` (all within 3) and `splitText` yields
`[ "ab", "cd" ]`. -/
theorem claim_C2_chunk_bounds_witness :
    " cd".toList.length ≤ 3 ∧ ("ab".toList.length ≤ 3 ∨ ' ' ∉ "ab".toList) :=
  ⟨(claim_C2_chunk_bounds "ab cd".toList 3).1 " cd".toList (by decide),
   (claim_C2_chunk_bounds "ab cd".toList 3).2 "ab".toList (by decide)⟩

/-- **C7** (confirmed): joining the chunks of `splitText` applied to a
normalized text with single spaces preserves every non-whitespace
character in its original order (stated as equality of the
whitespace-filtered sequences, which also forces the chunks to appear
in input order), and an input within `maxLength` is returned unchanged
as a single-element sequence. -/
theorem claim_C7_chunk_content (t : Str) (maxLength : Nat) :
    nonWs (joinSp (splitText (normalizeText t) maxLength)) = nonWs (normalizeText t)
    ∧ ∀ s : Str, s.length ≤ maxLength → splitText s maxLength = [s] := by
  constructor
  · exact splitText_content (normalizeText t) maxLength
  · intro s hs
    unfold splitText
    rw [if_pos hs]

/-- Witness for C7: a concrete long text splits with all
non-whitespace characters preserved in order, and a short text is
returned unchanged. -/
theorem claim_C7_chunk_content_witness :
    nonWs (joinSp (splitText (normalizeText "Hola.  Adios mundo".toList) 8)) =
      nonWs (normalizeText "Hola.  Adios mundo".toList)
    ∧ splitText "ab".toList 3 = ["ab".toList] :=
  ⟨(claim_C7_chunk_content "Hola.  Adios mundo".toList 8).1,
   (claim_C7_chunk_content "x".toList 3).2 "ab".toList (by decide)⟩
